import Mathlib

/-!
# Verification of the hx-requests LSP indexing core

Shallow embedding of the Python sources under
`bundled/libs/hx_requests_lsp/` (template_parser.py, python_parser.py,
base_class_resolver.py, index.py) together with proofs about the frozen
claims on the repository's specification.

Conventions of the embedding:
* Python `dict` is modelled as an association list `List (String × α)`
  with Python's semantics: `dinsert` replaces the binding in place when
  the key is present and appends otherwise; `derase` (`del d[k]`) drops
  the binding; lookup returns the first binding.
* Python `set` of strings is modelled as a `List String` used only
  through membership, insertion and discard.
* File contents and `ast.parse` are external to the embedded code; a
  parsed Python file is represented by its AST (`Stmt` below), and the
  file system seen by the base-class resolver is a record of functions.
* Strings are manipulated as `List Char` (one entry per code point,
  matching Python `str` indexing); `String` in Lean 4.14 wraps
  `List Char`, so conversions are definitional.
-/

namespace HxRequestsLsp

/-! ## Python dict / set model -/

/-- Lookup in a Python dict modelled as an association list
(first binding wins; with unique keys this is the binding). -/
def dlookup {α : Type} : List (String × α) → String → Option α
  | [], _ => none
  | (k, v) :: rest, n => if k = n then some v else dlookup rest n

/-- `d[k] = v`: replace the binding in place when present, append otherwise. -/
def dinsert {α : Type} : List (String × α) → String → α → List (String × α)
  | [], k, v => [(k, v)]
  | (k0, v0) :: rest, k, v =>
      if k0 = k then (k, v) :: rest else (k0, v0) :: dinsert rest k v

/-- `del d[k]` / `d.pop(k, None)`: drop every binding of the key
(with unique keys, the binding). -/
def derase {α : Type} (m : List (String × α)) (k : String) : List (String × α) :=
  m.filter (fun p => p.1 ≠ k)

/-- `s.add(x)` on a Python set of strings. -/
def sinsert (s : List String) (x : String) : List String :=
  if x ∈ s then s else x :: s

/-- `s.discard(x)` on a Python set of strings. -/
def sdiscard (s : List String) (x : String) : List String :=
  s.filter (fun y => y ≠ x)

theorem dlookup_dinsert_self {α : Type} (m : List (String × α)) (k : String) (v : α) :
    dlookup (dinsert m k v) k = some v := by
  induction m with
  | nil => simp [dinsert, dlookup]
  | cons p rest ih =>
      obtain ⟨k0, v0⟩ := p
      by_cases h : k0 = k <;> simp [dinsert, dlookup, h, ih]

theorem dlookup_dinsert_ne {α : Type} (m : List (String × α)) (k n : String) (v : α)
    (h : k ≠ n) : dlookup (dinsert m k v) n = dlookup m n := by
  induction m with
  | nil => simp [dinsert, dlookup, h]
  | cons p rest ih =>
      obtain ⟨k0, v0⟩ := p
      by_cases h0 : k0 = k
      · subst h0; simp [dinsert, dlookup, h]
      · simp [dinsert, dlookup, h0, ih]

theorem derase_cons {α : Type} (k0 : String) (v0 : α) (rest : List (String × α)) (k : String) :
    derase ((k0, v0) :: rest) k =
      if k0 = k then derase rest k else (k0, v0) :: derase rest k := by
  by_cases h : k0 = k <;> simp [derase, List.filter_cons, h]

theorem dlookup_derase_self {α : Type} (m : List (String × α)) (k : String) :
    dlookup (derase m k) k = none := by
  induction m with
  | nil => simp [derase, dlookup]
  | cons p rest ih =>
      obtain ⟨k0, v0⟩ := p
      rw [derase_cons]
      by_cases h : k0 = k
      · simpa [h] using ih
      · simp [h, dlookup, ih]

theorem dlookup_derase_ne {α : Type} (m : List (String × α)) (k n : String) (h : k ≠ n) :
    dlookup (derase m k) n = dlookup m n := by
  induction m with
  | nil => simp [derase, dlookup]
  | cons p rest ih =>
      obtain ⟨k0, v0⟩ := p
      rw [derase_cons]
      by_cases h0 : k0 = k
      · subst h0; simp [dlookup, h, ih]
      · by_cases h1 : k0 = n <;> simp [dlookup, h0, h1, Ne.symm h, ih]

theorem dlookup_eq_some_of_mem {α : Type} {m : List (String × α)} {k : String} {v : α}
    (hnd : (m.map Prod.fst).Nodup) (hm : (k, v) ∈ m) : dlookup m k = some v := by
  induction m with
  | nil => cases hm
  | cons p rest ih =>
      obtain ⟨k0, v0⟩ := p
      simp only [List.map_cons, List.nodup_cons] at hnd
      rcases List.mem_cons.mp hm with h | h
      · cases h; simp [dlookup]
      · have hk : k0 ≠ k := by
          intro he; subst he
          exact hnd.1 (by simpa using List.mem_map_of_mem Prod.fst h)
        simp [dlookup, hk, ih hnd.2 h]

theorem mem_of_dlookup_eq_some {α : Type} {m : List (String × α)} {k : String} {v : α}
    (h : dlookup m k = some v) : (k, v) ∈ m := by
  induction m with
  | nil => cases h
  | cons p rest ih =>
      obtain ⟨k0, v0⟩ := p
      by_cases h0 : k0 = k
      · subst h0; simp [dlookup] at h; simp [h]
      · simp [dlookup, h0] at h
        exact List.mem_cons_of_mem _ (ih h)

theorem keys_dinsert {α : Type} (m : List (String × α)) (k : String) (v : α) :
    (dinsert m k v).map Prod.fst =
      if k ∈ m.map Prod.fst then m.map Prod.fst else m.map Prod.fst ++ [k] := by
  induction m with
  | nil => simp [dinsert]
  | cons p rest ih =>
      obtain ⟨k0, v0⟩ := p
      by_cases h0 : k0 = k
      · subst h0; simp [dinsert]
      · have hne : ¬ k = k0 := fun he => h0 he.symm
        by_cases hmem : k ∈ rest.map Prod.fst
        · simp [dinsert, h0, ih, hmem, hne]
        · simp [dinsert, h0, ih, hmem, hne]

theorem nodup_keys_dinsert {α : Type} (m : List (String × α)) (k : String) (v : α)
    (h : (m.map Prod.fst).Nodup) : ((dinsert m k v).map Prod.fst).Nodup := by
  rw [keys_dinsert]
  by_cases hmem : k ∈ m.map Prod.fst
  · simpa [hmem] using h
  · simp only [hmem, if_false]
    exact List.Nodup.append h (List.nodup_singleton k)
      (by simpa [List.disjoint_singleton] using hmem)

theorem nodup_keys_derase {α : Type} (m : List (String × α)) (k : String)
    (h : (m.map Prod.fst).Nodup) : ((derase m k).map Prod.fst).Nodup := by
  have hs : List.Sublist ((derase m k).map Prod.fst) (m.map Prod.fst) :=
    List.Sublist.map Prod.fst (List.filter_sublist m)
  exact h.sublist hs

/-! ## Template parser (`template_parser.py`)

The two regular expressions `HX_TAG_PATTERN` and `HX_VALS_PATTERN` are
embedded as explicit character-level matchers.  Both regexes are
deterministic on their input once backtracking is taken into account:

* the three tag keywords are mutually non-prefix, so at most one
  alternative of `(hx_post|hx_get|hx_request)` can match at a position;
* the greedy `\s*` / `\s+` never have to give back characters, because
  the following token (`h`, a quote, or `[a-zA-Z_]`) is never whitespace;
* in `['"]([^'"]+)['"]` the greedy `[^'"]+` stops at the first quote
  character after the opening one (the closing quote may differ from the
  opening quote), and fails when that quote is adjacent to the opening
  one;
* the lazy `.*?` of `HX_VALS_PATTERN` selects the earliest position at
  which the whole `hx_request_name\s*=\s*(...)` suffix matches.

Strings are scanned as `List Char`; columns are code-point indices,
matching Python `str` indexing. -/

structure HxRequestUsage where
  name : String
  file_path : String
  line_number : Nat
  column : Nat
  end_column : Nat
  tag_type : String
  full_match : String
deriving DecidableEq, Repr

/-- Python `\s` on the ASCII range (templates are scanned line by line,
so the line separators only matter degenerately). -/
def isWsChar (c : Char) : Bool :=
  c == ' ' || c == '\t' || c == '\n' || c == '\r' || c == '\x0b' || c == '\x0c'

def isQuoteChar (c : Char) : Bool := c == '\'' || c == '"'

/-- The regex class `[a-zA-Z_]`. -/
def isBareStartChar (c : Char) : Bool :=
  (decide ('a' ≤ c) && decide (c ≤ 'z')) || (decide ('A' ≤ c) && decide (c ≤ 'Z')) || c == '_'

/-- The regex class `[a-zA-Z0-9_.]`. -/
def isBareContChar (c : Char) : Bool :=
  isBareStartChar c || (decide ('0' ≤ c) && decide (c ≤ '9')) || c == '.'

/-- `pat` is a literal prefix of `l`. -/
def litPrefix : List Char → List Char → Bool
  | [], _ => true
  | _ :: _, [] => false
  | p :: ps, c :: cs => p == c && litPrefix ps cs

/-- The literal `pat` occurs in `l` at position `i`. -/
def litAt (l : List Char) (i : Nat) (pat : List Char) : Bool :=
  litPrefix pat (l.drop i)

/-- Length of the maximal whitespace run at the head. -/
def wsRun : List Char → Nat
  | [] => 0
  | c :: cs => if isWsChar c then wsRun cs + 1 else 0

/-- First index `≥ i` after the maximal whitespace run starting at `i`
(the position where a greedy `\s*` anchored at `i` stops). -/
def skipWs (l : List Char) (i : Nat) : Nat := i + wsRun (l.drop i)

/-- Length of the maximal `[a-zA-Z0-9_.]` run at the head. -/
def bareRun : List Char → Nat
  | [] => 0
  | c :: cs => if isBareContChar c then bareRun cs + 1 else 0

/-- Index of the first character satisfying `p`. -/
def findFromIdx (p : Char → Bool) : List Char → Option Nat
  | [] => none
  | c :: cs => if p c then some 0 else (findFromIdx p cs).map (· + 1)

/-- First quote character (of either kind) at an index `≥ i`. -/
def findQuoteFrom (l : List Char) (i : Nat) : Option Nat :=
  (findFromIdx isQuoteChar (l.drop i)).map (· + i)

/-- First occurrence of the literal `pat` (Python `str.find` restricted
to a suffix). -/
def findSub (pat : List Char) : List Char → Option Nat
  | [] => if pat = [] then some 0 else none
  | c :: rest => if litPrefix pat (c :: rest) then some 0 else (findSub pat rest).map (· + 1)

/-- Python `line.find(pat, i)` (as an `Option`; the caller turns `none`
into `-1`). -/
def findSubFrom (l pat : List Char) (i : Nat) : Option Nat :=
  (findSub pat (l.drop i)).map (· + i)

/-- The slice `l[a:b]`. -/
def sliceCh (l : List Char) (a b : Nat) : List Char := (l.drop a).take (b - a)

def openTagChars : List Char := ['\x7b', '%']

def hxPostChars : List Char := "hx_post".data
def hxGetChars : List Char := "hx_get".data
def hxRequestChars : List Char := "hx_request".data
def hxValsChars : List Char := "hx_vals".data
def hxRequestNameChars : List Char := "hx_request_name".data
def viewPrefixChars : List Char := "view.".data

/-- The `(hx_post|hx_get|hx_request)` alternation at position `j`;
returns the keyword and the position just after it.  The three literals
are mutually non-prefix, so regex alternation order collapses to a
first-match test. -/
def matchTagKeyword (l : List Char) (j : Nat) : Option (String × Nat) :=
  if litAt l j hxPostChars then some ("hx_post", j + 7)
  else if litAt l j hxGetChars then some ("hx_get", j + 6)
  else if litAt l j hxRequestChars then some ("hx_request", j + 10)
  else none

/-- The name argument `(?:['"]([^'"]+)['"]|([a-zA-Z_][a-zA-Z0-9_.]*))`
anchored at `pos`: returns (end of match, name characters, quoted?,
index of the first name character). -/
def matchNameArg (l : List Char) (pos : Nat) : Option (Nat × List Char × Bool × Nat) :=
  match l[pos]? with
  | some c =>
      if isQuoteChar c then
        match findQuoteFrom l (pos + 1) with
        | some j3 =>
            if pos + 1 < j3 then some (j3 + 1, sliceCh l (pos + 1) j3, true, pos + 1)
            else none
        | none => none
      else if isBareStartChar c then
        let e := pos + 1 + bareRun (l.drop (pos + 1))
        some (e, sliceCh l pos e, false, pos)
      else none
  | none => none

/-- One match of `HX_TAG_PATTERN`. `namePos` records where the captured
name characters sit in the line (derived data used by the proofs; the
regex engine carries the same information in its group spans). -/
structure TagMatch where
  mstart : Nat
  mstop : Nat
  tag : String
  nameChars : List Char
  quoted : Bool
  namePos : Nat
deriving DecidableEq, Repr

/-- `HX_TAG_PATTERN` anchored at position `i`. -/
def matchTagAt (l : List Char) (i : Nat) : Option TagMatch :=
  if litAt l i openTagChars then
    let j := skipWs l (i + 2)
    match matchTagKeyword l j with
    | some (tag, k) =>
        match l[k]? with
        | some c =>
            if isWsChar c then
              let j2 := skipWs l k
              match matchNameArg l j2 with
              | some (stop, nm, q, npos) => some ⟨i, stop, tag, nm, q, npos⟩
              | none => none
            else none
        | none => none
    | none => none
  else none

/-- One match of `HX_VALS_PATTERN`. -/
structure ValsMatch where
  mstart : Nat
  mstop : Nat
  nameChars : List Char
  quoted : Bool
  namePos : Nat
deriving DecidableEq, Repr

/-- The `hx_request_name\s*=\s*(...)` suffix of `HX_VALS_PATTERN`
anchored at position `p`. -/
def matchValsSubAt (l : List Char) (p : Nat) : Option (Nat × List Char × Bool × Nat) :=
  if litAt l p hxRequestNameChars then
    let q1 := skipWs l (p + 15)
    match l[q1]? with
    | some c =>
        if c == '=' then matchNameArg l (skipWs l (q1 + 1)) else none
    | none => none
  else none

/-- The lazy `.*?` search: earliest `p` in `[pstart, …]` at which the
suffix pattern matches (fuel-driven; `l.length + 2` fuel always
suffices because the scan position grows by one per step). -/
def findValsSubFrom (l : List Char) : Nat → Nat → Option (Nat × List Char × Bool × Nat)
  | _, 0 => none
  | p, fuel + 1 =>
      if p > l.length then none
      else
        match matchValsSubAt l p with
        | some r => some r
        | none => findValsSubFrom l (p + 1) fuel

/-- `HX_VALS_PATTERN` anchored at position `i`. -/
def matchValsAt (l : List Char) (i : Nat) : Option ValsMatch :=
  if litAt l i openTagChars then
    let j := skipWs l (i + 2)
    if litAt l j hxValsChars then
      match l[j + 7]? with
      | some c =>
          if isWsChar c then
            match findValsSubFrom l (j + 8) (l.length + 2) with
            | some (stop, nm, q, npos) => some ⟨i, stop, nm, q, npos⟩
            | none => none
          else none
      | none => none
    else none
  else none

/-- `finditer` for `HX_TAG_PATTERN`: leftmost matches, resuming after
each match end (all matches are non-empty). -/
def hxTagFinditer (l : List Char) : Nat → Nat → List TagMatch
  | _, 0 => []
  | i, fuel + 1 =>
      if i > l.length then []
      else
        match matchTagAt l i with
        | some m => m :: hxTagFinditer l m.mstop fuel
        | none => hxTagFinditer l (i + 1) fuel

def hxTagMatches (l : List Char) : List TagMatch := hxTagFinditer l 0 (l.length + 2)

/-- `finditer` for `HX_VALS_PATTERN`. -/
def hxValsFinditer (l : List Char) : Nat → Nat → List ValsMatch
  | _, 0 => []
  | i, fuel + 1 =>
      if i > l.length then []
      else
        match matchValsAt l i with
        | some m => m :: hxValsFinditer l m.mstop fuel
        | none => hxValsFinditer l (i + 1) fuel

def hxValsMatches (l : List Char) : List ValsMatch := hxValsFinditer l 0 (l.length + 2)

/-- `_find_name_position`: prefer a same-quote-delimited occurrence
(single quotes first), then a bare occurrence, then fall back to the
search start. -/
def _find_name_position (l : List Char) (search_start : Nat) (name : List Char) : Nat :=
  match findSubFrom l ('\'' :: name ++ ['\'']) search_start with
  | some pos => pos + 1
  | none =>
      match findSubFrom l ('"' :: name ++ ['"']) search_start with
      | some pos => pos + 1
      | none =>
          match findSubFrom l name search_start with
          | some pos => pos
          | none => search_start

/-- `"." in name`. -/
def dotInName (name : List Char) : Bool := name.contains '.'

/-- `name.startswith("view.")`. -/
def startsWithView (name : List Char) : Bool := litPrefix viewPrefixChars name

/-- The body of the `HX_TAG_PATTERN` loop of
`parse_template_for_hx_requests` for one match. -/
def tagUsageOfMatch (fp : String) (lineNum : Nat) (l : List Char) (m : TagMatch) :
    Option HxRequestUsage :=
  if m.nameChars.isEmpty then none
  else if dotInName m.nameChars && !startsWithView m.nameChars then none
  else if startsWithView m.nameChars then none
  else
    let name_start := _find_name_position l m.mstart m.nameChars
    some { name := ⟨m.nameChars⟩, file_path := fp, line_number := lineNum,
           column := name_start, end_column := name_start + m.nameChars.length,
           tag_type := m.tag, full_match := ⟨sliceCh l m.mstart m.mstop⟩ }

/-- The body of the `HX_VALS_PATTERN` loop for one match. -/
def valsUsageOfMatch (fp : String) (lineNum : Nat) (l : List Char) (m : ValsMatch) :
    Option HxRequestUsage :=
  if !m.nameChars.isEmpty && !dotInName m.nameChars then
    let name_start := _find_name_position l m.mstart m.nameChars
    some { name := ⟨m.nameChars⟩, file_path := fp, line_number := lineNum,
           column := name_start, end_column := name_start + m.nameChars.length,
           tag_type := "hx_vals", full_match := ⟨sliceCh l m.mstart m.mstop⟩ }
  else none

/-- All usages contributed by one line. -/
def usagesOfLine (fp : String) (lineNum : Nat) (l : List Char) : List HxRequestUsage :=
  (hxTagMatches l).filterMap (tagUsageOfMatch fp lineNum l)
    ++ (hxValsMatches l).filterMap (valsUsageOfMatch fp lineNum l)

/-- Python `str.splitlines` restricted to the `\n` / `\r\n` / `\r`
boundaries (the exotic Unicode boundaries are not modelled; none of the
scanned syntax can contain them). -/
def splitlinesAux : List Char → List Char → List (List Char)
  | acc, [] => if acc.isEmpty then [] else [acc.reverse]
  | acc, '\r' :: '\n' :: rest => acc.reverse :: splitlinesAux [] rest
  | acc, '\n' :: rest => acc.reverse :: splitlinesAux [] rest
  | acc, '\r' :: rest => acc.reverse :: splitlinesAux [] rest
  | acc, c :: rest => splitlinesAux (c :: acc) rest

def splitlinesChars (s : List Char) : List (List Char) := splitlinesAux [] s

/-- The `enumerate(lines, start=1)` loop. -/
def usagesOfLines (fp : String) : Nat → List (List Char) → List HxRequestUsage
  | _, [] => []
  | n, l :: rest => usagesOfLine fp n l ++ usagesOfLines fp (n + 1) rest

/-- `parse_template_for_hx_requests(content, file_path)`. -/
def parse_template_for_hx_requests (content : String) (fp : String) : List HxRequestUsage :=
  usagesOfLines fp 1 (splitlinesChars content.data)

/-- Outcome of reading a template file from disk (`Path.exists` /
`Path.read_text`): the file system is external to the embedded code. -/
inductive TemplateFileRead
  | missing
  | undecodable
  | decoded (content : String)
deriving DecidableEq

/-- `parse_template_file`: a missing file or a `UnicodeDecodeError`
yields the empty list; otherwise the content is parsed.
`resolved_path` stands for `str(file_path.resolve())`. -/
def parse_template_file (file : TemplateFileRead) (resolved_path : String) :
    List HxRequestUsage :=
  match file with
  | .missing => []
  | .undecodable => []
  | .decoded content => parse_template_for_hx_requests content resolved_path

/-! ### Lemmas about the scanning primitives -/

theorem litPrefix_iff (pat : List Char) : ∀ l : List Char,
    litPrefix pat l = true ↔ l.take pat.length = pat := by
  induction pat with
  | nil => intro l; simp [litPrefix]
  | cons p ps ih =>
      intro l
      cases l with
      | nil => simp [litPrefix]
      | cons c cs =>
          simp only [litPrefix, Bool.and_eq_true, beq_iff_eq, List.length_cons,
            List.take_succ_cons, ih]
          constructor
          · rintro ⟨h1, h2⟩; rw [h1, h2]
          · intro h
            have h1 : c = p := (List.cons_eq_cons.mp h).1
            have h2 : cs.take ps.length = ps := (List.cons_eq_cons.mp h).2
            exact ⟨h1.symm, h2⟩

theorem take_litPrefix : ∀ (l : List Char) (n : Nat), litPrefix (l.take n) l = true := by
  intro l
  induction l with
  | nil => intro n; simp [litPrefix]
  | cons c cs ih =>
      intro n
      cases n with
      | zero => simp [litPrefix]
      | succ m => simpa [litPrefix] using ih m

theorem litPrefix_append_left {a b l : List Char}
    (h : litPrefix (a ++ b) l = true) : litPrefix a l = true := by
  induction a generalizing l with
  | nil => simp [litPrefix]
  | cons p ps ih =>
      cases l with
      | nil => simp [litPrefix] at h
      | cons c cs =>
          simp only [List.cons_append, litPrefix, Bool.and_eq_true] at h ⊢
          exact ⟨h.1, ih h.2⟩

theorem litPrefix_cons_inv {p : Char} {ps l : List Char}
    (h : litPrefix (p :: ps) l = true) :
    ∃ cs, l = p :: cs ∧ litPrefix ps cs = true := by
  cases l with
  | nil => simp [litPrefix] at h
  | cons c cs =>
      simp only [litPrefix, Bool.and_eq_true, beq_iff_eq] at h
      exact ⟨cs, by rw [h.1], h.2⟩

theorem drop_tail_of_drop_eq_cons {l cs : List Char} {c : Char} {n : Nat}
    (h : l.drop n = c :: cs) : l.drop (n + 1) = cs := by
  have hd : (l.drop n).drop 1 = l.drop (n + 1) := List.drop_drop 1 n l
  rw [h] at hd
  simpa using hd.symm

theorem findSub_sound {pat : List Char} : ∀ {l : List Char} {n : Nat},
    findSub pat l = some n → litPrefix pat (l.drop n) = true := by
  intro l
  induction l with
  | nil =>
      intro n h
      simp only [findSub] at h
      by_cases hp : pat = []
      · subst hp; simp at h; subst h; simp [litPrefix]
      · simp [hp] at h
  | cons c cs ih =>
      intro n h
      simp only [findSub] at h
      by_cases hp : litPrefix pat (c :: cs) = true
      · simp [hp] at h; subst h; simpa using hp
      · simp only [hp, if_neg, Bool.false_eq_true, if_false, Option.map_eq_some'] at h
        obtain ⟨m, hm, rfl⟩ := h
        simpa [List.drop_succ_cons] using ih hm

theorem findSub_complete {pat : List Char} : ∀ {l : List Char} {n : Nat},
    litPrefix pat (l.drop n) = true → (findSub pat l).isSome = true := by
  intro l
  induction l with
  | nil =>
      intro n h
      simp only [List.drop_nil] at h
      cases pat with
      | nil => simp [findSub]
      | cons p ps => simp [litPrefix] at h
  | cons c cs ih =>
      intro n h
      cases n with
      | zero =>
          simp only [List.drop_zero] at h
          simp [findSub, h]
      | succ m =>
          simp only [List.drop_succ_cons] at h
          simp only [findSub]
          by_cases hp : litPrefix pat (c :: cs) = true
          · simp [hp]
          · simpa [hp] using ih h

theorem findSubFrom_sound {l pat : List Char} {i p : Nat}
    (h : findSubFrom l pat i = some p) :
    i ≤ p ∧ litPrefix pat (l.drop p) = true := by
  simp only [findSubFrom, Option.map_eq_some'] at h
  obtain ⟨m, hm, rfl⟩ := h
  have hs := findSub_sound hm
  rw [List.drop_drop, Nat.add_comm] at hs
  exact ⟨Nat.le_add_left i m, hs⟩

theorem findSubFrom_complete {l pat : List Char} {i p : Nat}
    (hip : i ≤ p) (h : litPrefix pat (l.drop p) = true) :
    (findSubFrom l pat i).isSome = true := by
  have hp : p = i + (p - i) := by omega
  rw [hp, ← List.drop_drop] at h
  simpa [findSubFrom] using findSub_complete h

theorem findFromIdx_lt {p : Char → Bool} : ∀ {l : List Char} {n : Nat},
    findFromIdx p l = some n → n < l.length := by
  intro l
  induction l with
  | nil => intro n h; simp [findFromIdx] at h
  | cons c cs ih =>
      intro n h
      simp only [findFromIdx] at h
      by_cases hc : p c = true
      · rw [if_pos hc] at h
        cases h
        simp
      · simp only [hc, Bool.false_eq_true, if_false, Option.map_eq_some'] at h
        obtain ⟨m, hm, rfl⟩ := h
        have := ih hm
        simp only [List.length_cons]
        omega

theorem findQuoteFrom_bounds {l : List Char} {i j : Nat}
    (h : findQuoteFrom l i = some j) : i ≤ j ∧ j < l.length := by
  simp only [findQuoteFrom, Option.map_eq_some'] at h
  obtain ⟨m, hm, rfl⟩ := h
  have hlt := findFromIdx_lt hm
  rw [List.length_drop] at hlt
  constructor
  · exact Nat.le_add_left i m
  · omega

theorem sliceCh_litPrefix (l : List Char) (a b : Nat) :
    litPrefix (sliceCh l a b) (l.drop a) = true := by
  simpa [sliceCh] using take_litPrefix (l.drop a) (b - a)

theorem sliceCh_of_litPrefix {name l : List Char} {c : Nat}
    (h : litPrefix name (l.drop c) = true) :
    sliceCh l c (c + name.length) = name := by
  rw [litPrefix_iff] at h
  simpa [sliceCh] using h

theorem skipWs_ge (l : List Char) (i : Nat) : i ≤ skipWs l i :=
  Nat.le_add_right i _

/-! ### Lemmas about the matchers -/

theorem matchNameArg_sound {l : List Char} {pos : Nat}
    {r : Nat × List Char × Bool × Nat} (h : matchNameArg l pos = some r) :
    pos ≤ r.2.2.2 ∧ r.2.1 ≠ [] ∧ litPrefix r.2.1 (l.drop r.2.2.2) = true := by
  simp only [matchNameArg] at h
  split at h
  case h_2 => exact absurd h (by simp)
  case h_1 c hc =>
    split at h
    · -- quoted branch
      split at h
      case h_2 => exact absurd h (by simp)
      case h_1 j3 hq =>
        split at h
        case isFalse => exact absurd h (by simp)
        case isTrue hlt =>
          obtain ⟨hb1, hb2⟩ := findQuoteFrom_bounds hq
          cases h
          refine ⟨Nat.le_succ_of_le (Nat.le_refl pos), ?_, sliceCh_litPrefix l (pos + 1) j3⟩
          apply List.ne_nil_of_length_pos
          simp only [sliceCh, List.length_take, List.length_drop]
          omega
    · split at h
      · -- bare branch
        cases h
        have hpos : pos < l.length := by
          by_contra hge
          have : l[pos]? = none := by
            apply getElem?_neg
            omega
          rw [this] at hc; cases hc
        refine ⟨Nat.le_refl pos, ?_, sliceCh_litPrefix l pos _⟩
        apply List.ne_nil_of_length_pos
        simp only [sliceCh, List.length_take, List.length_drop]
        omega
      · exact absurd h (by simp)

theorem matchTagKeyword_ge {l : List Char} {j : Nat} {tag : String} {k : Nat}
    (h : matchTagKeyword l j = some (tag, k)) : j ≤ k := by
  simp only [matchTagKeyword] at h
  split at h
  · cases h; omega
  · split at h
    · cases h; omega
    · split at h
      · cases h; omega
      · cases h

theorem matchTagAt_props {l : List Char} {i : Nat} {m : TagMatch}
    (h : matchTagAt l i = some m) :
    m.mstart = i ∧ i ≤ m.namePos ∧ m.nameChars ≠ [] ∧
      litPrefix m.nameChars (l.drop m.namePos) = true := by
  simp only [matchTagAt] at h
  split at h
  case isFalse => exact absurd h (by simp)
  case isTrue hopen =>
    split at h
    case h_2 => exact absurd h (by simp)
    case h_1 tag k hkw =>
      split at h
      case h_2 => exact absurd h (by simp)
      case h_1 c hc =>
        split at h
        case isFalse => exact absurd h (by simp)
        case isTrue hws =>
          split at h
          case h_2 => exact absurd h (by simp)
          case h_1 stop nm q npos hname =>
            cases h
            have hsound := matchNameArg_sound hname
            have h1 : i + 2 ≤ skipWs l (i + 2) := skipWs_ge l (i + 2)
            have h2 : skipWs l (i + 2) ≤ k := matchTagKeyword_ge hkw
            have h3 : k ≤ skipWs l k := skipWs_ge l k
            have h4 : skipWs l k ≤ npos := hsound.1
            exact ⟨rfl, by show i ≤ npos; omega, hsound.2.1, hsound.2.2⟩

theorem matchValsSubAt_sound {l : List Char} {p : Nat}
    {r : Nat × List Char × Bool × Nat} (h : matchValsSubAt l p = some r) :
    p ≤ r.2.2.2 ∧ r.2.1 ≠ [] ∧ litPrefix r.2.1 (l.drop r.2.2.2) = true := by
  simp only [matchValsSubAt] at h
  split at h
  case isFalse => exact absurd h (by simp)
  case isTrue hlit =>
    split at h
    case h_2 => exact absurd h (by simp)
    case h_1 c hc =>
      split at h
      case isFalse => exact absurd h (by simp)
      case isTrue heq =>
        have hsound := matchNameArg_sound h
        have h1 : p ≤ p + 15 := by omega
        have h2 : p + 15 ≤ skipWs l (p + 15) := skipWs_ge l (p + 15)
        have h3 : skipWs l (p + 15) ≤ skipWs l (p + 15) + 1 := by omega
        have h4 := skipWs_ge l (skipWs l (p + 15) + 1)
        have h5 := hsound.1
        exact ⟨by omega, hsound.2.1, hsound.2.2⟩

theorem findValsSubFrom_src {l : List Char} : ∀ {fuel p : Nat}
    {r : Nat × List Char × Bool × Nat}, findValsSubFrom l p fuel = some r →
    ∃ q, p ≤ q ∧ matchValsSubAt l q = some r := by
  intro fuel
  induction fuel with
  | zero => intro p r h; simp [findValsSubFrom] at h
  | succ n ih =>
      intro p r h
      simp only [findValsSubFrom] at h
      split at h
      case isTrue => exact absurd h (by simp)
      case isFalse =>
        split at h
        case h_1 r0 hm =>
          cases h
          exact ⟨p, Nat.le_refl p, hm⟩
        case h_2 =>
          obtain ⟨q, hq1, hq2⟩ := ih h
          exact ⟨q, by omega, hq2⟩

theorem matchValsAt_props {l : List Char} {i : Nat} {m : ValsMatch}
    (h : matchValsAt l i = some m) :
    m.mstart = i ∧ i ≤ m.namePos ∧ m.nameChars ≠ [] ∧
      litPrefix m.nameChars (l.drop m.namePos) = true := by
  simp only [matchValsAt] at h
  split at h
  case isFalse => exact absurd h (by simp)
  case isTrue hopen =>
    split at h
    case isFalse => exact absurd h (by simp)
    case isTrue hvals =>
      split at h
      case h_2 => exact absurd h (by simp)
      case h_1 c hc =>
        split at h
        case isFalse => exact absurd h (by simp)
        case isTrue hws =>
          split at h
          case h_2 => exact absurd h (by simp)
          case h_1 stop nm q npos hfind =>
            cases h
            obtain ⟨p, hp1, hp2⟩ := findValsSubFrom_src hfind
            have hsound := matchValsSubAt_sound hp2
            have h1 : i + 2 ≤ skipWs l (i + 2) := skipWs_ge l (i + 2)
            have h5 : p ≤ npos := hsound.1
            exact ⟨rfl, by show i ≤ npos; omega, hsound.2.1, hsound.2.2⟩

theorem hxTagFinditer_src {l : List Char} : ∀ {fuel i : Nat} {m : TagMatch},
    m ∈ hxTagFinditer l i fuel → ∃ i0, matchTagAt l i0 = some m := by
  intro fuel
  induction fuel with
  | zero => intro i m h; simp [hxTagFinditer] at h
  | succ n ih =>
      intro i m h
      simp only [hxTagFinditer] at h
      split at h
      case isTrue => simp at h
      case isFalse =>
        split at h
        case h_1 m0 hm =>
          rcases List.mem_cons.mp h with h1 | h1
          · exact ⟨i, h1 ▸ hm⟩
          · exact ih h1
        case h_2 => exact ih h

theorem hxValsFinditer_src {l : List Char} : ∀ {fuel i : Nat} {m : ValsMatch},
    m ∈ hxValsFinditer l i fuel → ∃ i0, matchValsAt l i0 = some m := by
  intro fuel
  induction fuel with
  | zero => intro i m h; simp [hxValsFinditer] at h
  | succ n ih =>
      intro i m h
      simp only [hxValsFinditer] at h
      split at h
      case isTrue => simp at h
      case isFalse =>
        split at h
        case h_1 m0 hm =>
          rcases List.mem_cons.mp h with h1 | h1
          · exact ⟨i, h1 ▸ hm⟩
          · exact ih h1
        case h_2 => exact ih h

/-- If the name occurs anywhere at or after the search start,
`_find_name_position` returns a position at which the name occurs.
(This is where the unreachable `return search_start` fallback of the
source is discharged.) -/
theorem find_name_position_occurs {l name : List Char} {s p : Nat}
    (hsp : s ≤ p) (hocc : litPrefix name (l.drop p) = true) :
    litPrefix name (l.drop (_find_name_position l s name)) = true := by
  simp only [_find_name_position]
  split
  case h_1 pos hq =>
      obtain ⟨_, hlit⟩ := findSubFrom_sound hq
      obtain ⟨cs, hcs, hrest⟩ := litPrefix_cons_inv hlit
      rw [drop_tail_of_drop_eq_cons hcs]
      exact litPrefix_append_left hrest
  case h_2 hq1 =>
      split
      case h_1 pos hq =>
          obtain ⟨_, hlit⟩ := findSubFrom_sound hq
          obtain ⟨cs, hcs, hrest⟩ := litPrefix_cons_inv hlit
          rw [drop_tail_of_drop_eq_cons hcs]
          exact litPrefix_append_left hrest
      case h_2 hq2 =>
          split
          case h_1 pos hb => exact (findSubFrom_sound hb).2
          case h_2 hb =>
              exact absurd (findSubFrom_complete hsp hocc) (by simp [hb])

/-- Every usage produced for one line carries the line number, the file
path, a span whose length is the name length, and a column at which the
name actually occurs in the line. -/
theorem usagesOfLine_span {fp : String} {n : Nat} {l : List Char} {u : HxRequestUsage}
    (hu : u ∈ usagesOfLine fp n l) :
    u.line_number = n ∧ u.file_path = fp ∧
      u.end_column = u.column + u.name.data.length ∧
      litPrefix u.name.data (l.drop u.column) = true := by
  rcases List.mem_append.mp hu with h | h
  · obtain ⟨m, hm, hmu⟩ := List.mem_filterMap.mp h
    obtain ⟨i0, hmatch⟩ := hxTagFinditer_src hm
    obtain ⟨hstart, hle, hne, hlit⟩ := matchTagAt_props hmatch
    have hemp : m.nameChars.isEmpty = false := by
      cases hcc : m.nameChars with
      | nil => exact absurd hcc hne
      | cons a as => simp
    simp only [tagUsageOfMatch, hemp, Bool.false_eq_true, if_false] at hmu
    split at hmu
    case isTrue => exact Option.noConfusion hmu
    case isFalse =>
      split at hmu
      case isTrue => exact Option.noConfusion hmu
      case isFalse =>
        cases hmu
        refine ⟨rfl, rfl, rfl, ?_⟩
        exact find_name_position_occurs (hstart ▸ hle) hlit
  · obtain ⟨m, hm, hmu⟩ := List.mem_filterMap.mp h
    obtain ⟨i0, hmatch⟩ := hxValsFinditer_src hm
    obtain ⟨hstart, hle, hne, hlit⟩ := matchValsAt_props hmatch
    simp only [valsUsageOfMatch] at hmu
    split at hmu
    case isTrue =>
      cases hmu
      refine ⟨rfl, rfl, rfl, ?_⟩
      exact find_name_position_occurs (hstart ▸ hle) hlit
    case isFalse => exact Option.noConfusion hmu

theorem usagesOfLines_mem {fp : String} : ∀ {ls : List (List Char)} {n : Nat}
    {u : HxRequestUsage}, u ∈ usagesOfLines fp n ls →
    ∃ k l, ls[k]? = some l ∧ u ∈ usagesOfLine fp (n + k) l := by
  intro ls
  induction ls with
  | nil => intro n u h; simp [usagesOfLines] at h
  | cons l0 rest ih =>
      intro n u h
      rcases List.mem_append.mp h with h1 | h1
      · exact ⟨0, l0, by simp, by simpa using h1⟩
      · obtain ⟨k, l, hk, hu⟩ := ih h1
        exact ⟨k + 1, l, by simpa using hk, by
          have : n + 1 + k = n + (k + 1) := by omega
          rwa [this] at hu⟩

theorem usagesOfLines_mem_rev {fp : String} : ∀ {ls : List (List Char)} {n k : Nat}
    {l : List Char}, ls[k]? = some l →
    ∀ {u : HxRequestUsage}, u ∈ usagesOfLine fp (n + k) l → u ∈ usagesOfLines fp n ls := by
  intro ls
  induction ls with
  | nil => intro n k l h; simp at h
  | cons l0 rest ih =>
      intro n k l h u hu
      cases k with
      | zero =>
          simp only [List.getElem?_cons_zero, Option.some_inj] at h
          subst h
          exact List.mem_append.mpr (Or.inl (by simpa using hu))
      | succ k0 =>
          simp only [List.getElem?_cons_succ] at h
          refine List.mem_append.mpr (Or.inr ?_)
          apply ih h
          have : n + (k0 + 1) = n + 1 + k0 := by omega
          rwa [this] at hu

/-! ### Claim C3 and C8 theorems -/

theorem dotInName_of_startsWithView {name : List Char}
    (h : startsWithView name = true) : dotInName name = true := by
  have htake : name.take 5 = viewPrefixChars := by
    have := (litPrefix_iff viewPrefixChars name).mp h
    simpa using this
  have hdotmem : '.' ∈ name := by
    apply List.take_subset 5
    rw [htake]
    decide
  simpa [dotInName] using hdotmem

/-- Every usage ever produced by the template parser has a dot-free name
(the dotted-name branches of both loops discard the match). -/
theorem usagesOfLine_no_dot {fp : String} {n : Nat} {l : List Char} {u : HxRequestUsage}
    (hu : u ∈ usagesOfLine fp n l) : dotInName u.name.data = false := by
  rcases List.mem_append.mp hu with h | h
  · obtain ⟨m, hm, hmu⟩ := List.mem_filterMap.mp h
    simp only [tagUsageOfMatch] at hmu
    split at hmu
    case isTrue => exact Option.noConfusion hmu
    case isFalse =>
      split at hmu
      case isTrue => exact Option.noConfusion hmu
      case isFalse hcond =>
        split at hmu
        case isTrue => exact Option.noConfusion hmu
        case isFalse hview =>
          cases hmu
          simp only [Bool.and_eq_true, Bool.not_eq_true', not_and] at hcond
          cases hdot : dotInName m.nameChars
          · rfl
          · have hv : startsWithView m.nameChars = false := by
              cases hv2 : startsWithView m.nameChars
              · rfl
              · exact absurd hv2 hview
            exact absurd hv (by simpa [hdot] using hcond)
  · obtain ⟨m, hm, hmu⟩ := List.mem_filterMap.mp h
    simp only [valsUsageOfMatch] at hmu
    split at hmu
    case isTrue hcond =>
      cases hmu
      simp only [Bool.and_eq_true, Bool.not_eq_true'] at hcond
      exact hcond.2
    case isFalse => exact Option.noConfusion hmu

def c3_template : String := "\x7b% hx_post 'a.b' %\x7d"

/-- C3 counterexample: a direct tag whose name argument is the quoted
string literal `'a.b'` (a dot-containing literal) yields NO usage, even
though the claim says a quoted literal always yields a usage with that
name.  The first conjunct certifies that the regex does match the line
with quoted group `a.b`; the second shows the parse result is empty. -/
theorem claim_C3_counterexample :
    ((hxTagMatches c3_template.data).map fun m => (m.tag, String.mk m.nameChars, m.quoted))
        = [("hx_post", "a.b", true)] ∧
    parse_template_for_hx_requests c3_template "t.html" = [] := by
  exact ⟨by decide, by decide⟩

/-- C3 (amended): every usage the template parser accepts has a
dot-free name, whether it was quoted or bare (so quoted dotted literals
and `view.`-prefixed names are discarded exactly like bare dotted
names); conversely a direct tag match whose name is dot-free always
yields a usage with that name, tag kind and line. -/
theorem claim_C3_dot_free_names :
    (∀ (content fp : String) (u : HxRequestUsage),
        u ∈ parse_template_for_hx_requests content fp →
        dotInName u.name.data = false) ∧
    (∀ (content fp : String) (k : Nat) (l : List Char) (m : TagMatch),
        (splitlinesChars content.data)[k]? = some l →
        m ∈ hxTagMatches l →
        dotInName m.nameChars = false →
        ∃ u ∈ parse_template_for_hx_requests content fp,
          u.name = String.mk m.nameChars ∧ u.tag_type = m.tag ∧
          u.line_number = k + 1) := by
  constructor
  · intro content fp u hu
    obtain ⟨k, l, hk, hu2⟩ := usagesOfLines_mem hu
    exact usagesOfLine_no_dot hu2
  · intro content fp k l m hk hm hdot
    obtain ⟨i0, hmatch⟩ := hxTagFinditer_src hm
    obtain ⟨hstart, hle, hne, hlit⟩ := matchTagAt_props hmatch
    have hemp : m.nameChars.isEmpty = false := by
      cases hcc : m.nameChars with
      | nil => exact absurd hcc hne
      | cons a as => simp
    have hview : startsWithView m.nameChars = false := by
      cases hv : startsWithView m.nameChars
      · rfl
      · exact absurd (dotInName_of_startsWithView hv) (by simp [hdot])
    have hmk : tagUsageOfMatch fp (1 + k) l m =
        some { name := ⟨m.nameChars⟩, file_path := fp, line_number := 1 + k,
               column := _find_name_position l m.mstart m.nameChars,
               end_column := _find_name_position l m.mstart m.nameChars + m.nameChars.length,
               tag_type := m.tag, full_match := ⟨sliceCh l m.mstart m.mstop⟩ } := by
      simp [tagUsageOfMatch, hemp, hdot, hview]
    refine ⟨{ name := ⟨m.nameChars⟩, file_path := fp, line_number := 1 + k,
              column := _find_name_position l m.mstart m.nameChars,
              end_column := _find_name_position l m.mstart m.nameChars + m.nameChars.length,
              tag_type := m.tag, full_match := ⟨sliceCh l m.mstart m.mstop⟩ },
            ?_, rfl, rfl, by show 1 + k = k + 1; omega⟩
    apply usagesOfLines_mem_rev hk
    exact List.mem_append.mpr (Or.inl (List.mem_filterMap.mpr ⟨m, hm, hmk⟩))

def c8_template : String := "\x7b% hx_post 'foo' %\x7d"

def c8_usage : HxRequestUsage :=
  { name := "foo", file_path := "t.html", line_number := 1, column := 12,
    end_column := 15, tag_type := "hx_post", full_match := "\x7b% hx_post 'foo'" }

/-- C8: for every usage the template parser accepts, the span is exact:
`end_column - column` equals the name length and the line's text at
`[column, end_column)` is the name; and `_find_name_position` prefers a
quoted occurrence of the name over a bare one whenever a quoted
occurrence exists at or after the match start. -/
theorem claim_C8_span_exact :
    (∀ (content fp : String) (u : HxRequestUsage),
        u ∈ parse_template_for_hx_requests content fp →
        u.end_column - u.column = u.name.data.length ∧
        ∃ l, (splitlinesChars content.data)[u.line_number - 1]? = some l ∧
          sliceCh l u.column u.end_column = u.name.data) ∧
    (∀ (l name : List Char) (s : Nat),
        (∃ q p, isQuoteChar q = true ∧ s ≤ p ∧
          litPrefix (q :: name ++ [q]) (l.drop p) = true) →
        ∃ q p, isQuoteChar q = true ∧
          litPrefix (q :: name ++ [q]) (l.drop p) = true ∧
          _find_name_position l s name = p + 1) := by
  constructor
  · intro content fp u hu
    obtain ⟨k, l, hk, hu2⟩ := usagesOfLines_mem hu
    obtain ⟨hline, hfp, hspan, hlit⟩ := usagesOfLine_span hu2
    have hk2 : (splitlinesChars content.data)[u.line_number - 1]? = some l := by
      rw [hline]
      simpa using hk
    refine ⟨by omega, l, hk2, ?_⟩
    rw [hspan]
    exact sliceCh_of_litPrefix hlit
  · intro l name s hocc
    simp only [_find_name_position]
    split
    case h_1 pos hq =>
        exact ⟨'\'', pos, by decide, (findSubFrom_sound hq).2, rfl⟩
    case h_2 hq1 =>
        split
        case h_1 pos hq =>
            exact ⟨'"', pos, by decide, (findSubFrom_sound hq).2, rfl⟩
        case h_2 hq2 =>
            obtain ⟨q, p, hqc, hsp, hlit⟩ := hocc
            simp only [isQuoteChar, Bool.or_eq_true, beq_iff_eq] at hqc
            rcases hqc with rfl | rfl
            · exact absurd (findSubFrom_complete hsp hlit) (by rw [hq1]; simp)
            · exact absurd (findSubFrom_complete hsp hlit) (by rw [hq2]; simp)

/-- Witness for C8 at a concrete template. -/
theorem claim_C8_witness :
    (c8_usage ∈ parse_template_for_hx_requests c8_template "t.html") ∧
    (c8_usage.end_column - c8_usage.column = c8_usage.name.data.length ∧
      ∃ l, (splitlinesChars c8_template.data)[c8_usage.line_number - 1]? = some l ∧
        sliceCh l c8_usage.column c8_usage.end_column = c8_usage.name.data) ∧
    (∃ q p, isQuoteChar q = true ∧
      litPrefix (q :: "foo".data ++ [q]) (c8_template.data.drop p) = true ∧
      _find_name_position c8_template.data 0 "foo".data = p + 1) :=
  ⟨by decide,
   claim_C8_span_exact.1 c8_template "t.html" c8_usage (by decide),
   claim_C8_span_exact.2 c8_template.data "foo".data 0
     ⟨'\'', 11, by decide, by decide, by decide⟩⟩

def c3_match : TagMatch :=
  { mstart := 0, mstop := 16, tag := "hx_post", nameChars := "foo".data,
    quoted := true, namePos := 12 }

/-- Witness for the amended C3 at a concrete template. -/
theorem claim_C3_witness :
    (c8_usage ∈ parse_template_for_hx_requests c8_template "t.html") ∧
    dotInName c8_usage.name.data = false ∧
    ((splitlinesChars c8_template.data)[0]? = some c8_template.data ∧
      c3_match ∈ hxTagMatches c8_template.data ∧
      dotInName c3_match.nameChars = false) ∧
    (∃ u ∈ parse_template_for_hx_requests c8_template "t.html",
      u.name = String.mk c3_match.nameChars ∧ u.tag_type = c3_match.tag ∧
      u.line_number = 0 + 1) :=
  ⟨by decide,
   claim_C3_dot_free_names.1 c8_template "t.html" c8_usage (by decide),
   ⟨by decide, by decide, by decide⟩,
   claim_C3_dot_free_names.2 c8_template "t.html" 0 c8_template.data c3_match
     (by decide) (by decide) (by decide)⟩

/-! ## Python parser (`python_parser.py`)

`ast.parse` is external: a parsed file is represented by its statement
tree.  The `Stmt` type distinguishes exactly the shapes the visitor and
the resolver walk: class definitions, (annotated) assignments,
`from … import …`, expression statements (for docstrings), other
compound statements with bodies (whose children `generic_visit` and
`ast.walk` still traverse), and leaf statements. -/

structure BaseClassInfo where
  name : String
  file_path : Option String
  line_number : Option Nat
deriving DecidableEq, Repr

structure HxRequestDefinition where
  name : String
  class_name : String
  file_path : String
  line_number : Nat
  end_line_number : Nat
  column : Nat
  base_classes : List String
  base_class_info : List BaseClassInfo
  docstring : Option String
  get_template : Option String
  post_template : Option String
deriving DecidableEq, Repr

/-- The base-expression shapes `_get_base_class_names` distinguishes. -/
inductive BaseExpr
  | nameId (id : String)
  | attribute (attr : String)
  | subscriptName (id : String)
  | subscriptOther
  | otherExpr
deriving DecidableEq, Repr

inductive AssignTarget
  | nameTarget (id : String)
  | otherTarget
deriving DecidableEq, Repr

/-- The value shapes inspected when reading class attributes and
docstrings (`ast.Constant` with a string, other constants, anything
else). -/
inductive PyExpr
  | constantStr (s : String)
  | constantOther
  | otherVal
deriving DecidableEq, Repr

inductive Stmt
  | classDef (name : String) (bases : List BaseExpr) (body : List Stmt)
      (lineno : Nat) (end_lineno : Option Nat) (col_offset : Nat)
  | assign (targets : List AssignTarget) (value : PyExpr)
  | annAssign (target : AssignTarget) (value : Option PyExpr)
  | importFrom (module : Option String) (names : List (String × Option String))
  | exprStmt (value : PyExpr)
  | otherBlock (body : List Stmt)
  | otherStmt

abbrev Module := List Stmt

/-- `_get_base_class_names`: `ast.Name` gives its id, `ast.Attribute`
its trailing segment, a subscript over a name its base id; all other
base expressions are skipped. -/
def baseExprName : BaseExpr → Option String
  | .nameId id => some id
  | .attribute attr => some attr
  | .subscriptName id => some id
  | .subscriptOther => none
  | .otherExpr => none

def _get_base_class_names (bases : List BaseExpr) : List String :=
  bases.filterMap baseExprName

/-- `str.endswith` via reversed character lists (avoiding byte-position
arithmetic; Python compares code points). -/
def strEndsWith (s suffix : String) : Bool :=
  litPrefix suffix.data.reverse s.data.reverse

/-- The `is_hx_request` test of `visit_ClassDef`: some base name ends
with one of the four recognised suffixes. -/
def isHxBaseList (names : List String) : Bool :=
  names.any fun b =>
    strEndsWith b "HxRequest" || strEndsWith b "HxMixin" || strEndsWith b "Hx" ||
      strEndsWith b "TabsRouter"

def constantStrValue : PyExpr → Option String
  | .constantStr s => some s
  | _ => none

/-- One body item of the attribute scan shared by
`_extract_name_attribute` and `_extract_string_attribute` (the two
Python methods are verbatim duplicates parameterised by the attribute
name): a plain assignment with a matching `ast.Name` target, or an
annotated assignment with a matching target, yields its string-constant
value. -/
def attrOfItem (attr_name : String) : Stmt → Option String
  | .assign targets value =>
      if targets.any fun t => t == .nameTarget attr_name then constantStrValue value
      else none
  | .annAssign target value =>
      if target == .nameTarget attr_name then value.bind constantStrValue
      else none
  | _ => none

def _extract_name_attribute (body : List Stmt) : Option String :=
  body.findSome? (attrOfItem "name")

def _extract_string_attribute (body : List Stmt) (attr_name : String) : Option String :=
  body.findSome? (attrOfItem attr_name)

/-- `ast.get_docstring`: the leading expression-statement string
constant, if any (`inspect.cleandoc` whitespace normalisation is not
modelled; no claim depends on docstring contents). -/
def get_docstring : List Stmt → Option String
  | .exprStmt (.constantStr s) :: _ => some s
  | _ => none

/-- One class as the visitor sees it. -/
structure ClassRec where
  name : String
  bases : List BaseExpr
  body : List Stmt
  lineno : Nat
  end_lineno : Option Nat
  col_offset : Nat

/-- Python `end_lineno or lineno` (with `or` treating `None` and `0` as
falsy). -/
def endLineOr (end_lineno : Option Nat) (lineno : Nat) : Nat :=
  match end_lineno with
  | some e => if e = 0 then lineno else e
  | none => lineno

/-- The body of `visit_ClassDef` for one class: `none` when the class
has no recognised base suffix or no string-literal `name` attribute. -/
def mkClassDefinition (fp : String) (c : ClassRec) : Option HxRequestDefinition :=
  let base_class_names := _get_base_class_names c.bases
  if isHxBaseList base_class_names then
    match _extract_name_attribute c.body with
    | some hx_name =>
        some { name := hx_name, class_name := c.name, file_path := fp,
               line_number := c.lineno,
               end_line_number := endLineOr c.end_lineno c.lineno,
               column := c.col_offset, base_classes := base_class_names,
               base_class_info := [], docstring := get_docstring c.body,
               get_template := _extract_string_attribute c.body "GET_template",
               post_template := _extract_string_attribute c.body "POST_template" }
    | none => none
  else none

structure VisitorState where
  definitions : List HxRequestDefinition
  imports : List (String × String)

/-- `visit_ImportFrom`: for `from mod import n [as a]` record
`a or n ↦ mod` (when the module is present; aliases are identifiers and
hence non-empty, so Python truthiness is plain `Option` choice). -/
def recordImportFrom (st : VisitorState) (module : Option String)
    (names : List (String × Option String)) : VisitorState :=
  match module with
  | none => st
  | some mod =>
      { st with imports :=
          names.foldl (fun im p => dinsert im (p.2.getD p.1) mod) st.imports }

mutual
/-- `HxRequestVisitor.visit` on one statement: a `ClassDef` is processed
and then its body is visited (the `generic_visit` recursion), so nested
classes are collected in preorder; `ImportFrom` updates the import map;
other compound statements only have their children visited. -/
def visitStmt (fp : String) (st : VisitorState) : Stmt → VisitorState
  | .classDef n bases body l el co =>
      visitStmts fp
        { st with definitions :=
            st.definitions ++ (mkClassDefinition fp ⟨n, bases, body, l, el, co⟩).toList }
        body
  | .importFrom mod names => recordImportFrom st mod names
  | .otherBlock body => visitStmts fp st body
  | _ => st

def visitStmts (fp : String) (st : VisitorState) : List Stmt → VisitorState
  | [] => st
  | s :: rest => visitStmts fp (visitStmt fp st s) rest
end

def runVisitor (fp : String) (m : Module) : VisitorState :=
  visitStmts fp ⟨[], []⟩ m

mutual
/-- All classes below one statement, in the preorder the visitor uses. -/
def stmtClasses : Stmt → List ClassRec
  | .classDef n bases body l el co => ⟨n, bases, body, l, el, co⟩ :: stmtsClasses body
  | .otherBlock body => stmtsClasses body
  | _ => []

def stmtsClasses : List Stmt → List ClassRec
  | [] => []
  | s :: rest => stmtClasses s ++ stmtsClasses rest
end

/-- `resolve_all_base_classes` as the parse functions consume it:
base-class names, referencing file, import map ↦ resolved infos (the
workspace root is part of the closure). -/
abbrev BaseResolver := List String → String → List (String × String) → List BaseClassInfo

/-- The common tail of `parse_hx_requests_from_file` /
`parse_hx_requests_from_source`: run the visitor, then attach the
resolved base-class info to each collected definition. -/
def parse_hx_requests_from_module (m : Module) (fp : String) (r : BaseResolver) :
    List HxRequestDefinition :=
  let vs := runVisitor fp m
  vs.definitions.map fun d =>
    { d with base_class_info := r d.base_classes d.file_path vs.imports }

/-- Outcome of reading and parsing a Python file
(`Path.exists` / `Path.read_text` / `ast.parse`). -/
inductive PyFileRead
  | missing
  | undecodable
  | unparsable
  | parsed (m : Module)

/-- `parse_hx_requests_from_file`: a missing file, a
`UnicodeDecodeError` or a `SyntaxError` yields the empty list.
`resolved_path` stands for `str(file_path.resolve())`. -/
def parse_hx_requests_from_file (file : PyFileRead) (resolved_path : String)
    (r : BaseResolver) : List HxRequestDefinition :=
  match file with
  | .missing => []
  | .undecodable => []
  | .unparsable => []
  | .parsed m => parse_hx_requests_from_module m resolved_path r

/-- `parse_hx_requests_from_source`: `ast.parse` either fails
(`SyntaxError` ⇒ `none`) or yields a tree. -/
def parse_hx_requests_from_source (parse_result : Option Module) (fp : String)
    (r : BaseResolver) : List HxRequestDefinition :=
  match parse_result with
  | none => []
  | some m => parse_hx_requests_from_module m fp r

/-! ### Visitor census: one definition per qualifying class -/

mutual
theorem visitStmt_defs (fp : String) (st : VisitorState) (s : Stmt) :
    (visitStmt fp st s).definitions =
      st.definitions ++ (stmtClasses s).filterMap (mkClassDefinition fp) := by
  cases s with
  | classDef n bases body l el co =>
      show (visitStmts fp _ body).definitions = _
      rw [visitStmts_defs]
      cases hmk : mkClassDefinition fp ⟨n, bases, body, l, el, co⟩ <;>
        simp [stmtClasses, List.filterMap_cons, hmk, List.append_assoc]
  | assign targets value => simp [visitStmt, stmtClasses]
  | annAssign target value => simp [visitStmt, stmtClasses]
  | importFrom mod names =>
      cases mod <;> simp [visitStmt, recordImportFrom, stmtClasses]
  | exprStmt value => simp [visitStmt, stmtClasses]
  | otherBlock body =>
      show (visitStmts fp st body).definitions = _
      rw [visitStmts_defs]
      simp [stmtClasses]
  | otherStmt => simp [visitStmt, stmtClasses]

theorem visitStmts_defs (fp : String) (st : VisitorState) (l : List Stmt) :
    (visitStmts fp st l).definitions =
      st.definitions ++ (stmtsClasses l).filterMap (mkClassDefinition fp) := by
  cases l with
  | nil => simp [visitStmts, stmtsClasses]
  | cons s rest =>
      show (visitStmts fp (visitStmt fp st s) rest).definitions = _
      rw [visitStmts_defs, visitStmt_defs]
      simp [stmtsClasses, List.filterMap_append, List.append_assoc]
end

theorem runVisitor_defs (fp : String) (m : Module) :
    (runVisitor fp m).definitions = (stmtsClasses m).filterMap (mkClassDefinition fp) := by
  simpa using visitStmts_defs fp ⟨[], []⟩ m

theorem parse_module_eq (m : Module) (fp : String) (r : BaseResolver) :
    parse_hx_requests_from_module m fp r =
      ((stmtsClasses m).filterMap (mkClassDefinition fp)).map fun d =>
        { d with base_class_info := r d.base_classes d.file_path (runVisitor fp m).imports } := by
  simp [parse_hx_requests_from_module, runVisitor_defs]

theorem mkClassDefinition_file_path {fp : String} {c : ClassRec} {d : HxRequestDefinition}
    (h : mkClassDefinition fp c = some d) : d.file_path = fp := by
  simp only [mkClassDefinition] at h
  split at h
  · split at h
    · cases h; rfl
    · exact Option.noConfusion h
  · exact Option.noConfusion h

/-- Every definition the parser returns is stamped with the file it was
parsed from. -/
theorem parse_module_stamp {m : Module} {fp : String} {r : BaseResolver}
    {d : HxRequestDefinition} (h : d ∈ parse_hx_requests_from_module m fp r) :
    d.file_path = fp := by
  rw [parse_module_eq] at h
  obtain ⟨d0, hd0, rfl⟩ := List.mem_map.mp h
  obtain ⟨c, hc, hmk⟩ := List.mem_filterMap.mp hd0
  show d0.file_path = fp
  exact mkClassDefinition_file_path hmk

/-- A class qualifies exactly when some base name ends in a recognised
suffix and the `name` attribute is a string literal. -/
def isQualClass (c : ClassRec) : Bool :=
  isHxBaseList (_get_base_class_names c.bases) && (_extract_name_attribute c.body).isSome

theorem mkClassDefinition_isSome (fp : String) (c : ClassRec) :
    (mkClassDefinition fp c).isSome = isQualClass c := by
  simp only [mkClassDefinition, isQualClass]
  split
  case isTrue hhx =>
      cases hext : _extract_name_attribute c.body <;> simp [hhx, hext]
  case isFalse hhx =>
      simp [Bool.not_eq_true] at hhx
      simp [hhx]

theorem filterMap_eq_filterMap_filter_isSome {α β : Type} (f : α → Option β) :
    ∀ l : List α, l.filterMap f = (l.filter fun x => (f x).isSome).filterMap f := by
  intro l
  induction l with
  | nil => rfl
  | cons a rest ih =>
      cases hfa : f a <;>
        simp [List.filterMap_cons, List.filter_cons, hfa, ih]

def trivialResolver : BaseResolver := fun _ _ _ => []

def c6_hxclass (cls nm : String) : Stmt :=
  .classDef cls [.nameId "BaseHxRequest"]
    [.assign [.nameTarget "name"] (.constantStr nm)] 1 (some 3) 0

def c6_twice : Module := [c6_hxclass "A" "x", c6_hxclass "B" "x"]

def c6_recA : ClassRec :=
  ⟨"A", [.nameId "BaseHxRequest"],
   [.assign [.nameTarget "name"] (.constantStr "x")], 1, some 3, 0⟩

/-- C6 counterexample: a module holding two classes, both with a base
ending in a recognised suffix and both assigning `name = "x"`, contains
a class satisfying the claim's hypotheses, yet parsing yields TWO
definitions whose name equals that literal — not exactly one. -/
theorem claim_C6_counterexample :
    (c6_recA ∈ stmtsClasses c6_twice ∧
      isHxBaseList (_get_base_class_names c6_recA.bases) = true ∧
      _extract_name_attribute c6_recA.body = some "x") ∧
    (parse_hx_requests_from_module c6_twice "a.py" trivialResolver).map
        (fun d => d.name) = ["x", "x"] := by
  refine ⟨⟨?_, by decide, by decide⟩, by decide⟩
  show c6_recA ∈ c6_recA :: _
  exact List.Mem.head _

/-- C6 (amended): every class whose direct bases include a name ending
in a recognised suffix and whose body assigns the literal `name`
attribute a string contributes a Definition with that name; when such a
class is the only qualifying class declaration in the module (counting
nested ones), parsing yields exactly one Definition, named by the
literal. -/
theorem claim_C6_definition_per_class :
    (∀ (m : Module) (fp : String) (r : BaseResolver) (c : ClassRec) (s : String),
        c ∈ stmtsClasses m →
        isHxBaseList (_get_base_class_names c.bases) = true →
        _extract_name_attribute c.body = some s →
        ∃ d ∈ parse_hx_requests_from_module m fp r,
          d.name = s ∧ d.class_name = c.name ∧ d.line_number = c.lineno) ∧
    (∀ (m : Module) (fp : String) (r : BaseResolver) (c : ClassRec) (s : String),
        (stmtsClasses m).filter isQualClass = [c] →
        _extract_name_attribute c.body = some s →
        ∃ d, parse_hx_requests_from_module m fp r = [d] ∧ d.name = s) := by
  constructor
  · intro m fp r c s hc hhx hext
    have hmk : mkClassDefinition fp c = some
        { name := s, class_name := c.name, file_path := fp,
          line_number := c.lineno, end_line_number := endLineOr c.end_lineno c.lineno,
          column := c.col_offset, base_classes := _get_base_class_names c.bases,
          base_class_info := [], docstring := get_docstring c.body,
          get_template := _extract_string_attribute c.body "GET_template",
          post_template := _extract_string_attribute c.body "POST_template" } := by
      simp [mkClassDefinition, hhx, hext]
    rw [parse_module_eq]
    refine ⟨_, List.mem_map_of_mem _ (List.mem_filterMap.mpr ⟨c, hc, hmk⟩), rfl, rfl, rfl⟩
  · intro m fp r c s hfilter hext
    have hqual : isQualClass c = true := by
      have hmem : c ∈ (stmtsClasses m).filter isQualClass := by
        rw [hfilter]; exact List.Mem.head _
      exact (List.mem_filter.mp hmem).2
    have hhx : isHxBaseList (_get_base_class_names c.bases) = true := by
      simp only [isQualClass, Bool.and_eq_true] at hqual
      exact hqual.1
    have hone : (stmtsClasses m).filterMap (mkClassDefinition fp) =
        (mkClassDefinition fp c).toList := by
      rw [filterMap_eq_filterMap_filter_isSome]
      rw [List.filter_congr (fun x _ => mkClassDefinition_isSome fp x), hfilter]
      cases hmk : mkClassDefinition fp c <;> simp [List.filterMap_cons, hmk]
    have hmk : mkClassDefinition fp c = some
        { name := s, class_name := c.name, file_path := fp,
          line_number := c.lineno, end_line_number := endLineOr c.end_lineno c.lineno,
          column := c.col_offset, base_classes := _get_base_class_names c.bases,
          base_class_info := [], docstring := get_docstring c.body,
          get_template := _extract_string_attribute c.body "GET_template",
          post_template := _extract_string_attribute c.body "POST_template" } := by
      simp [mkClassDefinition, hhx, hext]
    rw [parse_module_eq, hone, hmk]
    exact ⟨_, rfl, rfl⟩

def c6_single : Module :=
  [.importFrom (some "hx_requests.hx_requests") [("BaseHxRequest", none)],
   c6_hxclass "Foo" "foo"]

def c6_recFoo : ClassRec :=
  ⟨"Foo", [.nameId "BaseHxRequest"],
   [.assign [.nameTarget "name"] (.constantStr "foo")], 1, some 3, 0⟩

/-- Witness for the amended C6 on a one-class module. -/
theorem claim_C6_witness :
    (c6_recFoo ∈ stmtsClasses c6_single ∧
      isHxBaseList (_get_base_class_names c6_recFoo.bases) = true ∧
      _extract_name_attribute c6_recFoo.body = some "foo") ∧
    (∃ d ∈ parse_hx_requests_from_module c6_single "app/hx_requests.py" trivialResolver,
      d.name = "foo" ∧ d.class_name = "Foo" ∧ d.line_number = 1) ∧
    ((stmtsClasses c6_single).filter isQualClass = [c6_recFoo]) ∧
    (∃ d, parse_hx_requests_from_module c6_single "app/hx_requests.py" trivialResolver
        = [d] ∧ d.name = "foo") := by
  have hmem : c6_recFoo ∈ stmtsClasses c6_single := by
    show c6_recFoo ∈ c6_recFoo :: _
    exact List.Mem.head _
  refine ⟨⟨hmem, by decide, by decide⟩, ?_, by rfl, ?_⟩
  · simpa using claim_C6_definition_per_class.1 c6_single "app/hx_requests.py"
      trivialResolver c6_recFoo "foo" hmem (by decide) (by decide)
  · exact claim_C6_definition_per_class.2 c6_single "app/hx_requests.py"
      trivialResolver c6_recFoo "foo" (by rfl) (by decide)

/-- C9: for every file, a missing file, undecodable bytes, or (for
Python sources) a failed parse never raises in the embedding and yields
the empty list from both `parse_hx_requests_from_file` and
`parse_template_file`. -/
theorem claim_C9_failures_yield_empty :
    (∀ (file : PyFileRead) (p : String) (r : BaseResolver),
        file = .missing ∨ file = .undecodable ∨ file = .unparsable →
        parse_hx_requests_from_file file p r = []) ∧
    (∀ (file : TemplateFileRead) (p : String),
        file = .missing ∨ file = .undecodable →
        parse_template_file file p = []) := by
  constructor
  · rintro file p r (rfl | rfl | rfl) <;> rfl
  · rintro file p (rfl | rfl) <;> rfl

/-- Witness for C9 at each failure state. -/
theorem claim_C9_witness :
    parse_hx_requests_from_file .missing "a.py" trivialResolver = [] ∧
    parse_hx_requests_from_file .undecodable "a.py" trivialResolver = [] ∧
    parse_hx_requests_from_file .unparsable "a.py" trivialResolver = [] ∧
    parse_template_file .missing "t.html" = [] ∧
    parse_template_file .undecodable "t.html" = [] :=
  ⟨claim_C9_failures_yield_empty.1 .missing "a.py" trivialResolver (Or.inl rfl),
   claim_C9_failures_yield_empty.1 .undecodable "a.py" trivialResolver (Or.inr (Or.inl rfl)),
   claim_C9_failures_yield_empty.1 .unparsable "a.py" trivialResolver (Or.inr (Or.inr rfl)),
   claim_C9_failures_yield_empty.2 .missing "t.html" (Or.inl rfl),
   claim_C9_failures_yield_empty.2 .undecodable "t.html" (Or.inr rfl)⟩

/-! ## Base-class resolver (`base_class_resolver.py`)

The file system and the import machinery are external; they are
abstracted as a record of functions.  The `lru_cache` decorators
memoize pure reads and are semantically transparent here (their
staleness on concurrent file edits is a spec-flagged limitation, not a
behaviour of the algorithm). -/

structure ResolverFS where
  /-- Read + `ast.parse` of a file; `none` models every failure
  (`FileNotFoundError`, `OSError`, `UnicodeDecodeError`,
  `SyntaxError`), which `_parse_file_for_classes` flattens to an empty
  class table. -/
  files : String → Option Module
  isFile : String → Bool
  isDir : String → Bool
  pathExists : String → Bool
  /-- `Path.glob("*.py")` of a directory, in the OS-reported order. -/
  globPy : String → List String
  /-- `Path.resolve`. -/
  resolvePath : String → String
  /-- `_find_class_in_installed_module` (importlib machinery plus a
  recursive package scan, all external I/O). -/
  installed : String → String → Option (String × Nat)

/-- The children a statement contributes to `ast.walk`. -/
def stmtChildren : Stmt → List Stmt
  | .classDef _ _ body _ _ _ => body
  | .otherBlock body => body
  | _ => []

/-- `ast.walk` breadth-first collection of `ClassDef` nodes (pop the
queue head, push its children at the back).  Fueled so the recursion is
structural: every step removes a node whose size strictly exceeds its
children's total size, so the `sizeOf` of the initial queue bounds the
step count and the fuel never runs out. -/
def walkClassesFuel : Nat → List Stmt → List (String × Nat)
  | 0, _ => []
  | _, [] => []
  | fuel + 1, s :: queue =>
      (match s with
       | .classDef n _ _ l _ _ => [(n, l)]
       | _ => []) ++ walkClassesFuel fuel (queue ++ stmtChildren s)

mutual
/-- Computable tree size used only to bound the `ast.walk` queue. -/
def stmtSize : Stmt → Nat
  | .classDef _ _ body _ _ _ => 1 + stmtsSize body
  | .otherBlock body => 1 + stmtsSize body
  | _ => 1

def stmtsSize : List Stmt → Nat
  | [] => 0
  | s :: rest => stmtSize s + stmtsSize rest
end

def walkClasses (m : Module) : List (String × Nat) := walkClassesFuel (stmtsSize m + 1) m

/-- `_parse_file_for_classes`: class name ↦ line number for every class
in the tree (later duplicates overwrite); failures give `{}`. -/
def _parse_file_for_classes (fs : ResolverFS) (file_path : String) :
    List (String × Nat) :=
  match fs.files file_path with
  | none => []
  | some m => (walkClasses m).foldl (fun d p => dinsert d p.1 p.2) []

/-- `_find_class_in_module`: a file is searched directly; a package
directory is searched through its `__init__.py` and then its direct
`*.py` members. -/
def _find_class_in_module (fs : ResolverFS) (module_path : String)
    (class_name : String) : Option (String × Nat) :=
  if fs.isFile module_path then
    match dlookup (_parse_file_for_classes fs module_path) class_name with
    | some line => some (module_path, line)
    | none => none
  else if fs.isDir module_path then
    let init_file := module_path ++ "/__init__.py"
    let fromInit :=
      if fs.pathExists init_file then
        match dlookup (_parse_file_for_classes fs init_file) class_name with
        | some line => some (init_file, line)
        | none => none
      else none
    match fromInit with
    | some res => some res
    | none =>
        (fs.globPy module_path).findSome? fun py_file =>
          match dlookup (_parse_file_for_classes fs py_file) class_name with
          | some line => some (py_file, line)
          | none => none
  else none

/-- Python `str.split(sep)` for a one-character separator. -/
def splitOnChar (sep : Char) : List Char → List (List Char)
  | [] => [[]]
  | c :: rest =>
      let r := splitOnChar sep rest
      if c == sep then [] :: r
      else
        match r with
        | [] => [[c]]
        | h :: t => (c :: h) :: t

/-- `"/".join(parts)`. -/
def joinSlash : List String → String
  | [] => ""
  | [p] => p
  | p :: rest => p ++ "/" ++ joinSlash rest

/-- `Path.name` of a slash-joined path. -/
def pathName (p : String) : String :=
  (((splitOnChar '/' p.data).map String.mk).getLast?).getD ""

/-- `Path.parent` of a slash-joined path. -/
def pathParent (p : String) : String :=
  joinSlash (((splitOnChar '/' p.data).map String.mk).dropLast)

/-- One iteration of the tier-3 candidate loop: an existing candidate is
scanned (a candidate named `__init__.py` through its package directory),
a non-existing one is skipped. -/
def candidate_scan (fs : ResolverFS) (class_name path : String) : Option (String × Nat) :=
  if fs.pathExists path then
    _find_class_in_module fs
      (if pathName path = "__init__.py" then pathParent path else path) class_name
  else none

/-- The tier-3 candidate list, in the order the source builds it:
module-as-package-`__init__`, module-as-file, and (for dotted modules)
last-segment-as-file-under-parent-package. -/
def tier3_candidates (root : String) (module_parts : List String) : List String :=
  [root ++ "/" ++ joinSlash module_parts ++ "/__init__.py",
   root ++ "/" ++ joinSlash module_parts ++ ".py"] ++
  (if module_parts.length > 1 then
    [root ++ "/" ++ joinSlash module_parts.dropLast ++ "/" ++
      ((module_parts.getLast?).getD "" ++ ".py")]
   else [])

/-- `resolve_base_class`: same file, then installed modules, then
workspace candidates. -/
def resolve_base_class (fs : ResolverFS) (class_name source_file : String)
    (imports : List (String × String)) (workspace_root : Option String) :
    BaseClassInfo :=
  match dlookup (_parse_file_for_classes fs source_file) class_name with
  | some line =>
      { name := class_name, file_path := some (fs.resolvePath source_file),
        line_number := some line }
  | none =>
      let step2 : Option BaseClassInfo :=
        match dlookup imports class_name with
        | some module_name =>
            match fs.installed module_name class_name with
            | some res =>
                some { name := class_name, file_path := some res.1,
                       line_number := some res.2 }
            | none => none
        | none => none
      match step2 with
      | some info => info
      | none =>
          match dlookup imports class_name, workspace_root with
          | some module_path_str, some root =>
              let module_parts := (splitOnChar '.' module_path_str.data).map String.mk
              match (tier3_candidates root module_parts).findSome?
                  (candidate_scan fs class_name) with
              | some res =>
                  { name := class_name, file_path := some res.1,
                    line_number := some res.2 }
              | none =>
                  { name := class_name, file_path := none, line_number := none }
          | _, _ => { name := class_name, file_path := none, line_number := none }

def resolve_all_base_classes (fs : ResolverFS) (base_class_names : List String)
    (source_file : String) (imports : List (String × String))
    (workspace_root : Option String) : List BaseClassInfo :=
  base_class_names.map fun nm =>
    resolve_base_class fs nm source_file imports workspace_root

/-- C4: when the base name is declared as a class in the referencing
file itself AND is also importable (it appears in the import map and
the installed-module search would find it), the resolver returns the
same-file declaration's location: tier 1 short-circuits, local
shadowing wins. -/
theorem claim_C4_same_file_wins :
    ∀ (fs : ResolverFS) (class_name source_file : String)
      (imports : List (String × String)) (root : Option String)
      (line : Nat) (mod : String) (loc : String × Nat),
      dlookup (_parse_file_for_classes fs source_file) class_name = some line →
      dlookup imports class_name = some mod →
      fs.installed mod class_name = some loc →
      resolve_base_class fs class_name source_file imports root =
        { name := class_name, file_path := some (fs.resolvePath source_file),
          line_number := some line } := by
  intro fs cn src imports root line mod loc h1 h2 h3
  simp [resolve_base_class, h1]

def c4_fs : ResolverFS :=
  { files := fun p =>
      if p = "/src/a.py" then some [.classDef "Base" [] [] 2 (some 2) 0] else none,
    isFile := fun _ => false, isDir := fun _ => false,
    pathExists := fun _ => false, globPy := fun _ => [],
    resolvePath := fun p => p,
    installed := fun mo cl =>
      if mo = "lib.bases" ∧ cl = "Base" then some ("/site/lib/bases.py", 10) else none }

/-- Witness for C4: `Base` declared both in `/src/a.py` (line 2) and in
the installed module `lib.bases`; resolution returns the same-file
location. -/
theorem claim_C4_witness :
    dlookup (_parse_file_for_classes c4_fs "/src/a.py") "Base" = some 2 ∧
    dlookup [("Base", "lib.bases")] "Base" = some "lib.bases" ∧
    c4_fs.installed "lib.bases" "Base" = some ("/site/lib/bases.py", 10) ∧
    resolve_base_class c4_fs "Base" "/src/a.py" [("Base", "lib.bases")] (some "/w") =
      { name := "Base", file_path := some "/src/a.py", line_number := some 2 } :=
  ⟨by decide, by decide, by decide,
   claim_C4_same_file_wins c4_fs "Base" "/src/a.py" [("Base", "lib.bases")]
     (some "/w") 2 "lib.bases" ("/site/lib/bases.py", 10)
     (by decide) (by decide) (by decide)⟩

/-- C5 (amended): in the workspace tier the candidate list is built in
the order module-as-package-`__init__`, module-as-file,
last-segment-as-file-under-parent-package, and the scan proceeds
through the candidates in that order, skipping candidates that do not
exist AND existing candidates in which the class is not found, until
one scan succeeds. -/
theorem claim_C5_candidate_order :
    ∀ (fs : ResolverFS) (class_name source_file module_path_str root : String)
      (imports : List (String × String)),
      dlookup (_parse_file_for_classes fs source_file) class_name = none →
      dlookup imports class_name = some module_path_str →
      fs.installed module_path_str class_name = none →
      ∀ parts cInit cFile crest,
        parts = (splitOnChar '.' module_path_str.data).map String.mk →
        cInit = root ++ "/" ++ joinSlash parts ++ "/__init__.py" →
        cFile = root ++ "/" ++ joinSlash parts ++ ".py" →
        crest = (if parts.length > 1 then
            [root ++ "/" ++ joinSlash parts.dropLast ++ "/" ++
              ((parts.getLast?).getD "" ++ ".py")]
          else []) →
      (tier3_candidates root parts = cInit :: cFile :: crest) ∧
      (∀ res, candidate_scan fs class_name cInit = some res →
        resolve_base_class fs class_name source_file imports (some root) =
          { name := class_name, file_path := some res.1, line_number := some res.2 }) ∧
      (candidate_scan fs class_name cInit = none →
        ∀ res, candidate_scan fs class_name cFile = some res →
        resolve_base_class fs class_name source_file imports (some root) =
          { name := class_name, file_path := some res.1, line_number := some res.2 }) ∧
      (candidate_scan fs class_name cInit = none →
        candidate_scan fs class_name cFile = none →
        resolve_base_class fs class_name source_file imports (some root) =
          match crest.findSome? (candidate_scan fs class_name) with
          | some res =>
              { name := class_name, file_path := some res.1, line_number := some res.2 }
          | none => { name := class_name, file_path := none, line_number := none }) := by
  intro fs cn src mps root imports h1 h2 h3 parts cInit cFile crest hparts hInit hFile hrest
  subst hparts hInit hFile hrest
  refine ⟨by simp [tier3_candidates], ?_, ?_, ?_⟩
  · intro res hres
    simp [resolve_base_class, h1, h2, h3, tier3_candidates, List.findSome?_cons, hres]
  · intro hnone res hres
    simp [resolve_base_class, h1, h2, h3, tier3_candidates, List.findSome?_cons,
      hnone, hres]
  · intro hnone1 hnone2
    simp [resolve_base_class, h1, h2, h3, tier3_candidates, List.findSome?_cons,
      hnone1, hnone2]

def c5_fs : ResolverFS :=
  { files := fun p =>
      if p = "/w/m/__init__.py" then some [.classDef "C" [] [] 2 (some 2) 0]
      else if p = "/w/m.py" then some [.classDef "C" [] [] 5 (some 5) 0]
      else if p = "/src/b.py" then some []
      else none,
    isFile := fun p => p == "/w/m.py",
    isDir := fun p => p == "/w/m",
    pathExists := fun p => p == "/w/m/__init__.py" || p == "/w/m.py",
    globPy := fun _ => [],
    resolvePath := fun p => p,
    installed := fun _ _ => none }

def c5_imports : List (String × String) := [("C", "m")]

/-- C5 counterexample: the class `C` is importable as module `m`; both
workspace candidates exist (`/w/m/__init__.py` declaring `C` at line 2
and `/w/m.py` declaring `C` at line 5).  Under the claimed candidate
order (module-as-file first) resolution would return `(/w/m.py, 5)`;
the resolver actually consults the package `__init__` candidate first
and returns `(/w/m/__init__.py, 2)`. -/
theorem claim_C5_counterexample :
    dlookup (_parse_file_for_classes c5_fs "/src/b.py") "C" = none ∧
    dlookup c5_imports "C" = some "m" ∧
    c5_fs.installed "m" "C" = none ∧
    c5_fs.pathExists "/w/m.py" = true ∧
    candidate_scan c5_fs "C" "/w/m.py" = some ("/w/m.py", 5) ∧
    c5_fs.pathExists "/w/m/__init__.py" = true ∧
    resolve_base_class c5_fs "C" "/src/b.py" c5_imports (some "/w") =
      { name := "C", file_path := some "/w/m/__init__.py", line_number := some 2 } := by
  exact ⟨by decide, by decide, by decide, by decide, by decide, by decide, by decide⟩

/-- Witness for the amended C5 at the concrete two-candidate layout. -/
theorem claim_C5_witness :
    (tier3_candidates "/w" ["m"] = ["/w/m/__init__.py", "/w/m.py"]) ∧
    candidate_scan c5_fs "C" "/w/m/__init__.py" = some ("/w/m/__init__.py", 2) ∧
    resolve_base_class c5_fs "C" "/src/b.py" c5_imports (some "/w") =
      { name := "C", file_path := some "/w/m/__init__.py", line_number := some 2 } := by
  have h := claim_C5_candidate_order c5_fs "C" "/src/b.py" "m" "/w" c5_imports
    (by decide) (by decide) (by decide) ["m"] "/w/m/__init__.py" "/w/m.py" []
    (by decide) (by decide) (by decide) (by decide)
  exact ⟨by decide, by decide, h.2.1 ("/w/m/__init__.py", 2) (by decide)⟩

/-! ## Index manager (`index.py`)

The four maps and the two indexed-file sets of `HxRequestIndex`.  All
file-path keys stand for `str(Path(...).resolve())` (callers resolve
before touching the maps).  The reentrant lock serialises every public
operation, so the reachable states of the instance are exactly the
states generated by sequential compositions of the operations below;
concurrency itself is outside the embedding. -/

structure IndexState where
  definitions : List (String × HxRequestDefinition)
  usages : List (String × List HxRequestUsage)
  definitions_by_file : List (String × List HxRequestDefinition)
  usages_by_file : List (String × List HxRequestUsage)
  indexed_python_files : List String
  indexed_template_files : List String

/-- A fresh index (also the state right after `build_full_index` clears
all maps). -/
def initialState : IndexState := ⟨[], [], [], [], [], []⟩

/-- One iteration of the definition-removal loop: delete the global
binding of the old definition's name when it still points at this
file. -/
def removeDefStep (fp : String) (m : List (String × HxRequestDefinition))
    (od : HxRequestDefinition) : List (String × HxRequestDefinition) :=
  match dlookup m od.name with
  | some d => if d.file_path = fp then derase m od.name else m
  | none => m

/-- The removal loop shared by `_update_python_file` and `remove_file`:
for each definition previously recorded for the file, delete the global
binding of its name when that binding still points at this file. -/
def removeDefsOwnedBy (defs : List (String × HxRequestDefinition))
    (old : List HxRequestDefinition) (fp : String) :
    List (String × HxRequestDefinition) :=
  old.foldl (removeDefStep fp) defs

/-- `for definition in definitions: self._definitions[definition.name] = definition`. -/
def insertDefs (defs : List (String × HxRequestDefinition))
    (ds : List HxRequestDefinition) : List (String × HxRequestDefinition) :=
  ds.foldl (fun m d => dinsert m d.name d) defs

/-- `_update_python_file` after the new definitions are parsed. -/
def _update_python_file (st : IndexState) (fp : String)
    (ds : List HxRequestDefinition) : IndexState :=
  { st with
    definitions :=
      insertDefs
        (removeDefsOwnedBy st.definitions
          ((dlookup st.definitions_by_file fp).getD []) fp) ds,
    definitions_by_file := dinsert st.definitions_by_file fp ds,
    indexed_python_files := sinsert st.indexed_python_files fp }

/-- One iteration of the usage-removal loop: filter this file's usages
out of the old usage's name list, dropping the binding when the list
empties. -/
def removeUsageStep (fp : String) (m : List (String × List HxRequestUsage))
    (ou : HxRequestUsage) : List (String × List HxRequestUsage) :=
  match dlookup m ou.name with
  | some l =>
      let l2 := l.filter fun u => u.file_path ≠ fp
      if l2 = [] then derase m ou.name else dinsert m ou.name l2
  | none => m

/-- The removal loop shared by `_update_template_file` and
`remove_file`: filter this file's usages out of each affected name's
list, dropping the binding when the list empties. -/
def removeUsagesOwnedBy (us : List (String × List HxRequestUsage))
    (old : List HxRequestUsage) (fp : String) :
    List (String × List HxRequestUsage) :=
  old.foldl (removeUsageStep fp) us

/-- The insertion loop of the template paths: append each usage to its
name's list, creating the list on first use. -/
def insertUsages (us : List (String × List HxRequestUsage))
    (new : List HxRequestUsage) : List (String × List HxRequestUsage) :=
  new.foldl (fun m u => dinsert m u.name ((dlookup m u.name).getD [] ++ [u])) us

/-- `_update_template_file` after the new usages are parsed. -/
def _update_template_file (st : IndexState) (fp : String)
    (new : List HxRequestUsage) : IndexState :=
  { st with
    usages :=
      insertUsages
        (removeUsagesOwnedBy st.usages
          ((dlookup st.usages_by_file fp).getD []) fp) new,
    usages_by_file := dinsert st.usages_by_file fp new,
    indexed_template_files := sinsert st.indexed_template_files fp }

/-- `_index_python_file` (used by the full build only: no removal of
previous contributions). -/
def _index_python_file (st : IndexState) (fp : String)
    (ds : List HxRequestDefinition) : IndexState :=
  { st with
    definitions := insertDefs st.definitions ds,
    definitions_by_file := dinsert st.definitions_by_file fp ds,
    indexed_python_files := sinsert st.indexed_python_files fp }

/-- `_index_template_file`. -/
def _index_template_file (st : IndexState) (fp : String)
    (new : List HxRequestUsage) : IndexState :=
  { st with
    usages := insertUsages st.usages new,
    usages_by_file := dinsert st.usages_by_file fp new,
    indexed_template_files := sinsert st.indexed_template_files fp }

/-- `update_file` on a `.py` path: the editor text (or the disk
content) goes through `ast.parse` — `parse_result` is that outcome —
and `_update_python_file` re-indexes.  (Paths with other suffixes leave
the state unchanged; the `.html` dispatch is `update_file_template`.) -/
def update_file_python (st : IndexState) (fp : String) (parse_result : Option Module)
    (r : BaseResolver) : IndexState :=
  _update_python_file st fp (parse_hx_requests_from_source parse_result fp r)

/-- `update_file` on an `.html` path. -/
def update_file_template (st : IndexState) (fp : String) (content : String) :
    IndexState :=
  _update_template_file st fp (parse_template_for_hx_requests content fp)

/-- The python half of `remove_file`, guarded by membership in the
indexed-python-file set. -/
def remove_file_python_half (st : IndexState) (fp : String) : IndexState :=
  if fp ∈ st.indexed_python_files then
    { st with
      definitions :=
        removeDefsOwnedBy st.definitions
          ((dlookup st.definitions_by_file fp).getD []) fp,
      definitions_by_file := derase st.definitions_by_file fp,
      indexed_python_files := sdiscard st.indexed_python_files fp }
  else st

/-- The template half of `remove_file`. -/
def remove_file_template_half (st : IndexState) (fp : String) : IndexState :=
  if fp ∈ st.indexed_template_files then
    { st with
      usages :=
        removeUsagesOwnedBy st.usages
          ((dlookup st.usages_by_file fp).getD []) fp,
      usages_by_file := derase st.usages_by_file fp,
      indexed_template_files := sdiscard st.indexed_template_files fp }
  else st

/-- `remove_file`: the python half then the template half. -/
def remove_file (st : IndexState) (fp : String) : IndexState :=
  remove_file_template_half (remove_file_python_half st fp) fp

/-- `build_full_index`: clear everything, then index the discovered
python files and template files (both discovery lists are de-duplicated
by the `find_*_files` helpers, hence the `Nodup` hypotheses at the
reachability step). -/
def build_full_index (pys : List (String × PyFileRead)) (r : BaseResolver)
    (tmpls : List (String × TemplateFileRead)) : IndexState :=
  let st1 := pys.foldl
    (fun s q => _index_python_file s q.1 (parse_hx_requests_from_file q.2 q.1 r))
    initialState
  tmpls.foldl
    (fun s q => _index_template_file s q.1 (parse_template_file q.2 q.1)) st1

def get_definition (st : IndexState) (name : String) : Option HxRequestDefinition :=
  dlookup st.definitions name

def get_usages (st : IndexState) (name : String) : List HxRequestUsage :=
  (dlookup st.usages name).getD []

/-- `find_unused_definitions`: definitions whose name has no usage
binding or an empty one. -/
def find_unused_definitions (st : IndexState) : List HxRequestDefinition :=
  st.definitions.filterMap fun p =>
    match dlookup st.usages p.1 with
    | none => some p.2
    | some l => if l = [] then some p.2 else none

/-- `find_undefined_usages`: usages whose name has no definition. -/
def find_undefined_usages (st : IndexState) : List HxRequestUsage :=
  st.usages.foldl
    (fun acc p => if (dlookup st.definitions p.1).isSome then acc else acc ++ p.2) []

/-- `_extract_app_name`'s scan: the segment preceding the first
occurrence of a reserved directory name at a position after the first
segment. -/
def appFromParts : List String → Option String
  | [] => none
  | [_] => none
  | prev :: curr :: rest =>
      if curr = "hx_requests" ∨ curr = "templates" ∨ curr = "template_partials"
      then some prev
      else appFromParts (curr :: rest)

/-- `_extract_app_name` (`Path.parts` of a POSIX path modelled by
splitting on `/`; the root marker becomes the empty leading segment,
which is never reserved). -/
def _extract_app_name (file_path : String) : Option String :=
  appFromParts ((splitOnChar '/' file_path.data).map String.mk)

/-- The two-part sort key of `get_definitions_sorted_by_relevance`. -/
def relevanceKey (current_app : Option String) (d : HxRequestDefinition) :
    Nat × String :=
  (if _extract_app_name d.file_path = current_app then 0 else 1, d.name)

/-- Lexicographic order on the two-part key (Python tuple comparison). -/
def keyLe (x y : Nat × String) : Prop :=
  x.1 < y.1 ∨ (x.1 = y.1 ∧ x.2 ≤ y.2)

instance : DecidableRel keyLe := fun x y =>
  inferInstanceAs (Decidable (x.1 < y.1 ∨ (x.1 = y.1 ∧ x.2 ≤ y.2)))

def relevanceRel (capp : Option String) (a b : HxRequestDefinition) : Prop :=
  keyLe (relevanceKey capp a) (relevanceKey capp b)

instance (capp : Option String) : DecidableRel (relevanceRel capp) := fun a b =>
  inferInstanceAs (Decidable (keyLe (relevanceKey capp a) (relevanceKey capp b)))

def nameRel (a b : HxRequestDefinition) : Prop := a.name ≤ b.name

instance : DecidableRel nameRel := fun a b =>
  inferInstanceAs (Decidable (a.name ≤ b.name))

/-- `get_definitions_sorted_by_relevance` (Python `sorted` with the
tuple key is a stable comparison sort; `insertionSort` over the key
order models it). `current_file` stands for the resolved current path. -/
def get_definitions_sorted_by_relevance (st : IndexState)
    (current_file : Option String) : List HxRequestDefinition :=
  let all_defs := st.definitions.map Prod.snd
  match current_file with
  | none => List.insertionSort nameRel all_defs
  | some cf => List.insertionSort (relevanceRel (_extract_app_name cf)) all_defs

/-- The states a single `HxRequestIndex` instance can reach: a fresh
instance, a full build, and the incremental operations.  The `Nodup`
hypotheses reflect the de-duplication in `find_hx_request_files` /
`find_template_files`. -/
inductive Reachable : IndexState → Prop
  | init : Reachable initialState
  | build (pys : List (String × PyFileRead)) (r : BaseResolver)
      (tmpls : List (String × TemplateFileRead))
      (hpy : (pys.map Prod.fst).Nodup) (htm : (tmpls.map Prod.fst).Nodup) :
      Reachable (build_full_index pys r tmpls)
  | updatePy (st : IndexState) (fp : String) (pr : Option Module) (r : BaseResolver) :
      Reachable st → Reachable (update_file_python st fp pr r)
  | updateTmpl (st : IndexState) (fp content : String) :
      Reachable st → Reachable (update_file_template st fp content)
  | removeF (st : IndexState) (fp : String) :
      Reachable st → Reachable (remove_file st fp)

/-! ### Closed forms of the index mutation loops -/

/-- The last definition in a parse result carrying a given name (the
one "latest wins" retains). -/
def lastNamed : List HxRequestDefinition → String → Option HxRequestDefinition
  | [], _ => none
  | d :: rest, n =>
      match lastNamed rest n with
      | some d2 => some d2
      | none => if d.name = n then some d else none

theorem lastNamed_spec : ∀ {ds : List HxRequestDefinition} {n : String}
    {d : HxRequestDefinition}, lastNamed ds n = some d → d.name = n ∧ d ∈ ds := by
  intro ds
  induction ds with
  | nil => intro n d h; simp [lastNamed] at h
  | cons d0 rest ih =>
      intro n d h
      simp only [lastNamed] at h
      cases hrest : lastNamed rest n with
      | some d2 =>
          rw [hrest] at h
          cases h
          obtain ⟨h1, h2⟩ := ih hrest
          exact ⟨h1, List.mem_cons_of_mem _ h2⟩
      | none =>
          rw [hrest] at h
          by_cases hd : d0.name = n
          · rw [if_pos hd] at h
            cases h
            exact ⟨hd, List.mem_cons_self _ _⟩
          · rw [if_neg hd] at h
            cases h

theorem lastNamed_eq_none : ∀ {ds : List HxRequestDefinition} {n : String},
    (∀ d ∈ ds, d.name ≠ n) → lastNamed ds n = none := by
  intro ds
  induction ds with
  | nil => intro n h; rfl
  | cons d0 rest ih =>
      intro n h
      simp only [lastNamed]
      rw [ih fun d hd => h d (List.mem_cons_of_mem _ hd)]
      rw [if_neg (h d0 (List.mem_cons_self _ _))]

theorem insertDefs_lookup : ∀ (ds : List HxRequestDefinition)
    (m : List (String × HxRequestDefinition)) (n : String),
    dlookup (insertDefs m ds) n =
      match lastNamed ds n with
      | some d => some d
      | none => dlookup m n := by
  intro ds
  induction ds with
  | nil => intro m n; rfl
  | cons d rest ih =>
      intro m n
      show dlookup (insertDefs (dinsert m d.name d) rest) n = _
      rw [ih]
      simp only [lastNamed]
      cases hrest : lastNamed rest n with
      | some d2 => rfl
      | none =>
          by_cases hd : d.name = n
          · rw [if_pos hd]
            rw [← hd]
            exact dlookup_dinsert_self m d.name d
          · rw [if_neg hd]
            exact dlookup_dinsert_ne m d.name n d hd

theorem removeDefStep_lookup_self (fp : String)
    (m : List (String × HxRequestDefinition)) (od : HxRequestDefinition) :
    dlookup (removeDefStep fp m od) od.name =
      match dlookup m od.name with
      | none => none
      | some d => if d.file_path = fp then none else some d := by
  cases hm : dlookup m od.name with
  | none => simp [removeDefStep, hm]
  | some d =>
      by_cases hfp : d.file_path = fp
      · simp [removeDefStep, hm, hfp, dlookup_derase_self]
      · simp [removeDefStep, hm, hfp]

theorem removeDefStep_lookup_ne (fp : String)
    (m : List (String × HxRequestDefinition)) (od : HxRequestDefinition)
    (n : String) (hne : od.name ≠ n) :
    dlookup (removeDefStep fp m od) n = dlookup m n := by
  cases hm : dlookup m od.name with
  | none => simp [removeDefStep, hm]
  | some d =>
      by_cases hfp : d.file_path = fp
      · simp [removeDefStep, hm, hfp, dlookup_derase_ne m od.name n hne]
      · simp [removeDefStep, hm, hfp]

theorem removeDefsOwnedBy_lookup (fp : String) :
    ∀ (old : List HxRequestDefinition) (m : List (String × HxRequestDefinition))
      (n : String),
    dlookup (removeDefsOwnedBy m old fp) n =
      match dlookup m n with
      | none => none
      | some d =>
          if (∃ od ∈ old, od.name = n) ∧ d.file_path = fp then none else some d := by
  intro old
  induction old with
  | nil =>
      intro m n
      cases h : dlookup m n <;> simp [removeDefsOwnedBy, h]
  | cons od rest ih =>
      intro m n
      have hstep : removeDefsOwnedBy m (od :: rest) fp =
          removeDefsOwnedBy (removeDefStep fp m od) rest fp := rfl
      rw [hstep, ih]
      by_cases hname : od.name = n
      · subst hname
        rw [removeDefStep_lookup_self]
        cases hm : dlookup m od.name with
        | none => rfl
        | some d =>
            by_cases hfp : d.file_path = fp
            · have hex : ∃ od2 ∈ od :: rest, od2.name = od.name :=
                ⟨od, List.mem_cons_self _ _, rfl⟩
              simp [hfp, hex]
            · simp [hfp]
      · rw [removeDefStep_lookup_ne fp m od n hname]
        cases hm : dlookup m n with
        | none => rfl
        | some d =>
            have hiff : (∃ od2 ∈ od :: rest, od2.name = n) ↔
                (∃ od2 ∈ rest, od2.name = n) := by
              constructor
              · rintro ⟨od2, hmem, hn⟩
                rcases List.mem_cons.mp hmem with rfl | hmem2
                · exact absurd hn hname
                · exact ⟨od2, hmem2, hn⟩
              · rintro ⟨od2, hmem, hn⟩
                exact ⟨od2, List.mem_cons_of_mem _ hmem, hn⟩
            by_cases hex : ∃ od2 ∈ rest, od2.name = n
            · simp [hex, hiff.mpr hex]
            · have hex2 : ¬ ∃ od2 ∈ od :: rest, od2.name = n := fun h => hex (hiff.mp h)
              simp [hex, hex2, hname]

theorem filter_own_idem {α : Type} (p : α → Bool) (l : List α) :
    (l.filter p).filter p = l.filter p := by
  induction l with
  | nil => rfl
  | cons a rest ih =>
      by_cases h : p a = true <;> simp [List.filter_cons, h, ih]

theorem removeUsageStep_lookup_self (fp : String)
    (m : List (String × List HxRequestUsage)) (ou : HxRequestUsage) :
    dlookup (removeUsageStep fp m ou) ou.name =
      match dlookup m ou.name with
      | none => none
      | some l =>
          if l.filter (fun u => u.file_path ≠ fp) = [] then none
          else some (l.filter (fun u => u.file_path ≠ fp)) := by
  cases hm : dlookup m ou.name with
  | none =>
      unfold removeUsageStep
      rw [hm]
      show dlookup m ou.name = none
      exact hm
  | some l =>
      unfold removeUsageStep
      rw [hm]
      show dlookup
          (if l.filter (fun u => u.file_path ≠ fp) = [] then derase m ou.name
           else dinsert m ou.name (l.filter (fun u => u.file_path ≠ fp))) ou.name =
        if l.filter (fun u => u.file_path ≠ fp) = [] then none
        else some (l.filter (fun u => u.file_path ≠ fp))
      by_cases hl : l.filter (fun u => u.file_path ≠ fp) = []
      · rw [if_pos hl, if_pos hl, dlookup_derase_self]
      · rw [if_neg hl, if_neg hl, dlookup_dinsert_self]

theorem removeUsageStep_lookup_ne (fp : String)
    (m : List (String × List HxRequestUsage)) (ou : HxRequestUsage)
    (n : String) (hne : ou.name ≠ n) :
    dlookup (removeUsageStep fp m ou) n = dlookup m n := by
  cases hm : dlookup m ou.name with
  | none =>
      unfold removeUsageStep
      rw [hm]
  | some l =>
      unfold removeUsageStep
      rw [hm]
      show dlookup
          (if l.filter (fun u => u.file_path ≠ fp) = [] then derase m ou.name
           else dinsert m ou.name (l.filter (fun u => u.file_path ≠ fp))) n =
        dlookup m n
      by_cases hl : l.filter (fun u => u.file_path ≠ fp) = []
      · rw [if_pos hl]
        exact dlookup_derase_ne m ou.name n hne
      · rw [if_neg hl]
        exact dlookup_dinsert_ne m ou.name n _ hne

theorem filterDrop_idem (p : HxRequestUsage → Bool) (X : Option (List HxRequestUsage)) :
    (match (match X with
            | none => none
            | some l => if l.filter p = [] then none else some (l.filter p)) with
     | none => none
     | some l => if l.filter p = [] then none else some (l.filter p)) =
    match X with
    | none => none
    | some l => if l.filter p = [] then none else some (l.filter p) := by
  cases X with
  | none => rfl
  | some l =>
      by_cases hl : l.filter p = []
      · simp [hl]
      · simp [hl, filter_own_idem]

theorem removeUsagesOwnedBy_lookup (fp : String) :
    ∀ (old : List HxRequestUsage) (m : List (String × List HxRequestUsage))
      (n : String),
    dlookup (removeUsagesOwnedBy m old fp) n =
      if ∃ ou ∈ old, ou.name = n then
        match dlookup m n with
        | none => none
        | some l =>
            if l.filter (fun u => u.file_path ≠ fp) = [] then none
            else some (l.filter (fun u => u.file_path ≠ fp))
      else dlookup m n := by
  intro old
  induction old with
  | nil =>
      intro m n
      simp [removeUsagesOwnedBy]
  | cons ou rest ih =>
      intro m n
      have hstep : removeUsagesOwnedBy m (ou :: rest) fp =
          removeUsagesOwnedBy (removeUsageStep fp m ou) rest fp := rfl
      rw [hstep, ih]
      by_cases hname : ou.name = n
      · subst hname
        have hex : ∃ ou2 ∈ ou :: rest, ou2.name = ou.name :=
          ⟨ou, List.mem_cons_self _ _, rfl⟩
        rw [if_pos hex]
        by_cases hex2 : ∃ ou2 ∈ rest, ou2.name = ou.name
        · rw [if_pos hex2, removeUsageStep_lookup_self]
          exact filterDrop_idem _ (dlookup m ou.name)
        · rw [if_neg hex2]
          exact removeUsageStep_lookup_self fp m ou
      · have hiff : (∃ ou2 ∈ ou :: rest, ou2.name = n) ↔
            (∃ ou2 ∈ rest, ou2.name = n) := by
          constructor
          · rintro ⟨ou2, hmem, hn⟩
            rcases List.mem_cons.mp hmem with rfl | hmem2
            · exact absurd hn hname
            · exact ⟨ou2, hmem2, hn⟩
          · rintro ⟨ou2, hmem, hn⟩
            exact ⟨ou2, List.mem_cons_of_mem _ hmem, hn⟩
        rw [removeUsageStep_lookup_ne fp m ou n hname]
        by_cases hex : ∃ ou2 ∈ rest, ou2.name = n
        · rw [if_pos hex, if_pos (hiff.mpr hex)]
        · rw [if_neg hex, if_neg (fun h => hex (hiff.mp h))]

/-- The usages a parse result contributes to one name, in order. -/
def usagesNamed (new : List HxRequestUsage) (n : String) : List HxRequestUsage :=
  new.filter fun u => u.name = n

theorem insertUsages_lookup : ∀ (new : List HxRequestUsage)
    (m : List (String × List HxRequestUsage)) (n : String),
    dlookup (insertUsages m new) n =
      if usagesNamed new n = [] then dlookup m n
      else some ((dlookup m n).getD [] ++ usagesNamed new n) := by
  intro new
  induction new with
  | nil => intro m n; simp [insertUsages, usagesNamed]
  | cons u rest ih =>
      intro m n
      have hstep : insertUsages m (u :: rest) =
          insertUsages (dinsert m u.name ((dlookup m u.name).getD [] ++ [u])) rest := rfl
      rw [hstep, ih]
      by_cases hname : u.name = n
      · subst hname
        have hfil : usagesNamed (u :: rest) u.name =
            u :: usagesNamed rest u.name := by
          simp [usagesNamed, List.filter_cons]
        rw [hfil]
        rw [dlookup_dinsert_self]
        by_cases hr : usagesNamed rest u.name = []
        · simp [hr]
        · simp only [hr, if_neg, if_false]
          have : ((dlookup m u.name).getD [] ++ [u]) ++ usagesNamed rest u.name =
              (dlookup m u.name).getD [] ++ (u :: usagesNamed rest u.name) := by
            simp
          simp [this]
      · have hfil : usagesNamed (u :: rest) n = usagesNamed rest n := by
          simp [usagesNamed, List.filter_cons, hname]
        rw [hfil, dlookup_dinsert_ne m u.name n _ hname]

/-! ### The index invariant and its preservation -/

/-- The cross-map invariant every reachable index state satisfies:
unique definition names, keys matching the stored names, global
bindings always reported by their owning file's per-file list, usage
lists non-empty and consistent with the per-file maps, and the
indexed-template-file set in sync with the per-file usage map. -/
structure Inv (st : IndexState) : Prop where
  defKeysNodup : (st.definitions.map Prod.fst).Nodup
  defKeyName : ∀ n d, dlookup st.definitions n = some d → d.name = n
  defOwned : ∀ n d, dlookup st.definitions n = some d →
      ∃ l, dlookup st.definitions_by_file d.file_path = some l ∧ d ∈ l
  usagesNonempty : ∀ n l, dlookup st.usages n = some l → l ≠ []
  usageKeyName : ∀ n l, dlookup st.usages n = some l → ∀ u ∈ l, u.name = n
  usageOwned : ∀ n l, dlookup st.usages n = some l → ∀ u ∈ l,
      ∃ l2, dlookup st.usages_by_file u.file_path = some l2 ∧ u ∈ l2
  tmplStamp : ∀ f l, dlookup st.usages_by_file f = some l → ∀ u ∈ l, u.file_path = f
  tmplComplete : ∀ f l, dlookup st.usages_by_file f = some l → ∀ u ∈ l,
      ∃ gl, dlookup st.usages u.name = some gl ∧ u ∈ gl
  tmplSync : ∀ f, f ∈ st.indexed_template_files ↔
      (dlookup st.usages_by_file f).isSome

theorem inv_initial : Inv initialState := by
  refine ⟨?_, ?_, ?_, ?_, ?_, ?_, ?_, ?_, ?_⟩ <;>
    first
      | exact List.nodup_nil
      | (intro n d h; cases h)
      | (intro n l h; cases h)
      | (intro f l h; cases h)
      | (intro f; simp [initialState, dlookup])

theorem nodup_keys_removeDefs (fp : String) :
    ∀ (old : List HxRequestDefinition) (m : List (String × HxRequestDefinition)),
    (m.map Prod.fst).Nodup → ((removeDefsOwnedBy m old fp).map Prod.fst).Nodup := by
  intro old
  induction old with
  | nil => intro m h; exact h
  | cons od rest ih =>
      intro m h
      have hstep : removeDefsOwnedBy m (od :: rest) fp =
          removeDefsOwnedBy (removeDefStep fp m od) rest fp := rfl
      rw [hstep]
      apply ih
      unfold removeDefStep
      cases hm : dlookup m od.name with
      | none => exact h
      | some d =>
          show (List.map Prod.fst
            (if d.file_path = fp then derase m od.name else m)).Nodup
          by_cases hfp : d.file_path = fp
          · rw [if_pos hfp]
            exact nodup_keys_derase m od.name h
          · rw [if_neg hfp]
            exact h

theorem nodup_keys_insertDefs :
    ∀ (ds : List HxRequestDefinition) (m : List (String × HxRequestDefinition)),
    (m.map Prod.fst).Nodup → ((insertDefs m ds).map Prod.fst).Nodup := by
  intro ds
  induction ds with
  | nil => intro m h; exact h
  | cons d rest ih =>
      intro m h
      exact ih (dinsert m d.name d) (nodup_keys_dinsert m d.name d h)

theorem mem_sinsert_iff (s : List String) (x y : String) :
    y ∈ sinsert s x ↔ y = x ∨ y ∈ s := by
  by_cases hx : x ∈ s
  · simp only [sinsert, if_pos hx]
    constructor
    · intro h; exact Or.inr h
    · rintro (rfl | h)
      · exact hx
      · exact h
  · simp [sinsert, if_neg hx]

/-- `_update_python_file` preserves the invariant (the parsed
definitions are stamped with the updated file's path). -/
theorem inv_update_python (st : IndexState) (fp : String)
    (ds : List HxRequestDefinition) (hInv : Inv st)
    (hstamp : ∀ d ∈ ds, d.file_path = fp) :
    Inv (_update_python_file st fp ds) := by
  set old := (dlookup st.definitions_by_file fp).getD [] with hold
  have hlook : ∀ n, dlookup (_update_python_file st fp ds).definitions n =
      match lastNamed ds n with
      | some d => some d
      | none =>
          match dlookup st.definitions n with
          | none => none
          | some d =>
              if (∃ od ∈ old, od.name = n) ∧ d.file_path = fp then none
              else some d := by
    intro n
    show dlookup (insertDefs (removeDefsOwnedBy st.definitions old fp) ds) n = _
    rw [insertDefs_lookup, removeDefsOwnedBy_lookup]
  refine ⟨?_, ?_, ?_, ?_, ?_, ?_, ?_, ?_, ?_⟩
  · exact nodup_keys_insertDefs ds _ (nodup_keys_removeDefs fp old _ hInv.defKeysNodup)
  · intro n d h
    rw [hlook] at h
    cases hlast : lastNamed ds n with
    | some d2 =>
        rw [hlast] at h
        cases h
        exact (lastNamed_spec hlast).1
    | none =>
        rw [hlast] at h
        cases hm : dlookup st.definitions n with
        | none => exact absurd (id h) (by rw [hm]; exact fun hx => Option.noConfusion hx)
        | some d2 =>
            rw [hm] at h
            have h2 : (if (∃ od ∈ old, od.name = n) ∧ d2.file_path = fp then none
                else some d2) = some d := h
            by_cases hcond : (∃ od ∈ old, od.name = n) ∧ d2.file_path = fp
            · rw [if_pos hcond] at h2; exact Option.noConfusion h2
            · rw [if_neg hcond] at h2
              cases h2
              exact hInv.defKeyName n d hm
  · intro n d h
    rw [hlook] at h
    cases hlast : lastNamed ds n with
    | some d2 =>
        rw [hlast] at h
        cases h
        obtain ⟨hname, hmem⟩ := lastNamed_spec hlast
        have hfp : d.file_path = fp := hstamp d hmem
        refine ⟨ds, ?_, hmem⟩
        show dlookup (dinsert st.definitions_by_file fp ds) d.file_path = some ds
        rw [hfp]
        exact dlookup_dinsert_self _ fp ds
    | none =>
        rw [hlast] at h
        cases hm : dlookup st.definitions n with
        | none => exact absurd (id h) (by rw [hm]; exact fun hx => Option.noConfusion hx)
        | some d2 =>
            rw [hm] at h
            have h2 : (if (∃ od ∈ old, od.name = n) ∧ d2.file_path = fp then none
                else some d2) = some d := h
            by_cases hcond : (∃ od ∈ old, od.name = n) ∧ d2.file_path = fp
            · rw [if_pos hcond] at h2; exact Option.noConfusion h2
            · rw [if_neg hcond] at h2
              cases h2
              obtain ⟨l, hl, hdl⟩ := hInv.defOwned n d hm
              have hfp : d.file_path ≠ fp := by
                intro hfpe
                apply hcond
                constructor
                · refine ⟨d, ?_, hInv.defKeyName n d hm⟩
                  have : old = l := by
                    rw [hold, ← hfpe, hl]
                    rfl
                  rw [this]
                  exact hdl
                · exact hfpe
              refine ⟨l, ?_, hdl⟩
              show dlookup (dinsert st.definitions_by_file fp ds) d.file_path = some l
              rw [dlookup_dinsert_ne _ fp d.file_path ds (fun he => hfp he.symm)]
              exact hl
  · exact hInv.usagesNonempty
  · exact hInv.usageKeyName
  · exact hInv.usageOwned
  · exact hInv.tmplStamp
  · exact hInv.tmplComplete
  · exact hInv.tmplSync

theorem mem_of_mem_filter_list {α : Type} {p : α → Bool} {l : List α} {a : α}
    (h : a ∈ l.filter p) : a ∈ l := List.mem_of_mem_filter h

/-- `_update_template_file` preserves the invariant (the parsed usages
are stamped with the updated file's path). -/
theorem inv_update_template (st : IndexState) (fp : String)
    (us : List HxRequestUsage) (hInv : Inv st)
    (hstamp : ∀ u ∈ us, u.file_path = fp) :
    Inv (_update_template_file st fp us) := by
  set old := (dlookup st.usages_by_file fp).getD [] with hold
  -- decomposition of a binding of the updated usages map
  have hsrc : ∀ n L, dlookup (_update_template_file st fp us).usages n = some L →
      L ≠ [] ∧ ∀ u ∈ L,
        u ∈ usagesNamed us n ∨
        (∃ l, dlookup st.usages n = some l ∧ u ∈ l ∧ u.file_path ≠ fp) ∨
        (∃ l, dlookup st.usages n = some l ∧ u ∈ l ∧ ¬ ∃ ou ∈ old, ou.name = n) := by
    intro n L h
    have h0 : dlookup (insertUsages (removeUsagesOwnedBy st.usages old fp) us) n
        = some L := h
    rw [insertUsages_lookup, removeUsagesOwnedBy_lookup] at h0
    -- first analyse the removal layer
    by_cases hnew : usagesNamed us n = []
    · rw [if_pos hnew] at h0
      by_cases hex : ∃ ou ∈ old, ou.name = n
      · rw [if_pos hex] at h0
        cases hm : dlookup st.usages n with
        | none =>
            rw [hm] at h0
            exact absurd h0 (by intro hx; exact Option.noConfusion hx)
        | some l =>
            rw [hm] at h0
            have h2 : (if l.filter (fun u => u.file_path ≠ fp) = [] then none
                else some (l.filter (fun u => u.file_path ≠ fp))) = some L := h0
            by_cases hl : l.filter (fun u => u.file_path ≠ fp) = []
            · rw [if_pos hl] at h2; exact Option.noConfusion h2
            · rw [if_neg hl] at h2
              cases h2
              refine ⟨hl, fun u hu => Or.inr (Or.inl ⟨l, rfl, ?_, ?_⟩)⟩
              · exact mem_of_mem_filter_list hu
              · have hdec := List.of_mem_filter hu
                simpa using hdec
      · rw [if_neg hex] at h0
        refine ⟨hInv.usagesNonempty n L h0, fun u hu => Or.inr (Or.inr ⟨L, h0, hu, hex⟩)⟩

    · rw [if_neg hnew] at h0
      cases h0
      constructor
      · intro hbad
        exact hnew (List.append_eq_nil.mp hbad).2
      · intro u hu
        rcases List.mem_append.mp hu with hu1 | hu1
        · -- u comes from the (possibly filtered) previous binding
          by_cases hex : ∃ ou ∈ old, ou.name = n
          · rw [if_pos hex] at hu1
            cases hm : dlookup st.usages n with
            | none =>
                rw [hm] at hu1
                simp at hu1
            | some l =>
                rw [hm] at hu1
                have hu2 : u ∈ ((if l.filter (fun v => v.file_path ≠ fp) = []
                    then (none : Option (List HxRequestUsage))
                    else some (l.filter (fun v => v.file_path ≠ fp))).getD []) := hu1
                by_cases hl : l.filter (fun v => v.file_path ≠ fp) = []
                · rw [if_pos hl] at hu2
                  simp at hu2
                · rw [if_neg hl] at hu2
                  simp only [Option.getD_some] at hu2
                  refine Or.inr (Or.inl ⟨l, rfl, mem_of_mem_filter_list hu2, ?_⟩)
                  have hdec := List.of_mem_filter hu2
                  simpa using hdec
          · rw [if_neg hex] at hu1
            cases hm : dlookup st.usages n with
            | none => rw [hm] at hu1; simp at hu1
            | some l =>
                rw [hm] at hu1
                simp only [Option.getD_some] at hu1
                exact Or.inr (Or.inr ⟨l, rfl, hu1, hex⟩)
        · exact Or.inl hu1
  refine ⟨hInv.defKeysNodup, hInv.defKeyName, ?defOwned, ?nonempty, ?keyName,
    ?owned, ?stamp, ?complete, ?sync⟩
  case defOwned =>
      intro n d h
      obtain ⟨l, hl, hdl⟩ := hInv.defOwned n d h
      exact ⟨l, hl, hdl⟩
  case nonempty =>
      intro n l h
      exact (hsrc n l h).1
  case keyName =>
      intro n l h u hu
      rcases (hsrc n l h).2 u hu with h1 | h1 | h1
      · have := List.of_mem_filter h1
        simpa using this
      · obtain ⟨l0, hm, hul, _⟩ := h1
        exact hInv.usageKeyName n l0 hm u hul
      · obtain ⟨l0, hm, hul, _⟩ := h1
        exact hInv.usageKeyName n l0 hm u hul
  case owned =>
      intro n l h u hu
      rcases (hsrc n l h).2 u hu with h1 | h1 | h1
      · have hmem : u ∈ us := mem_of_mem_filter_list h1
        refine ⟨us, ?_, hmem⟩
        show dlookup (dinsert st.usages_by_file fp us) u.file_path = some us
        rw [hstamp u hmem]
        exact dlookup_dinsert_self _ fp us
      · obtain ⟨l0, hm, hul, hufp⟩ := h1
        obtain ⟨l2, hl2, hul2⟩ := hInv.usageOwned n l0 hm u hul
        refine ⟨l2, ?_, hul2⟩
        show dlookup (dinsert st.usages_by_file fp us) u.file_path = some l2
        rw [dlookup_dinsert_ne _ fp u.file_path us (fun he => hufp he.symm)]
        exact hl2
      · obtain ⟨l0, hm, hul, hex⟩ := h1
        obtain ⟨l2, hl2, hul2⟩ := hInv.usageOwned n l0 hm u hul
        have hufp : u.file_path ≠ fp := by
          intro he
          apply hex
          refine ⟨u, ?_, hInv.usageKeyName n l0 hm u hul⟩
          have : old = l2 := by
            rw [hold, ← he, hl2]
            rfl
          rw [this]
          exact hul2
        refine ⟨l2, ?_, hul2⟩
        show dlookup (dinsert st.usages_by_file fp us) u.file_path = some l2
        rw [dlookup_dinsert_ne _ fp u.file_path us (fun he => hufp he.symm)]
        exact hl2
  case stamp =>
      intro f l h u hu
      by_cases hf : f = fp
      · subst hf
        have h2 : dlookup (dinsert st.usages_by_file f us) f = some us :=
          dlookup_dinsert_self _ f us
        have : l = us := by
          have := h
          rw [show (_update_template_file st f us).usages_by_file =
            dinsert st.usages_by_file f us from rfl] at this
          rw [h2] at this
          exact (Option.some_inj.mp this).symm
        subst this
        exact hstamp u hu
      · have h2 : dlookup st.usages_by_file f = some l := by
          have := h
          rw [show (_update_template_file st fp us).usages_by_file =
            dinsert st.usages_by_file fp us from rfl] at this
          rwa [dlookup_dinsert_ne _ fp f us (fun he => hf he.symm)] at this
        exact hInv.tmplStamp f l h2 u hu
  case complete =>
      intro f l h u hu
      have hlook2 : ∀ n2, dlookup (_update_template_file st fp us).usages n2 =
          if usagesNamed us n2 = [] then
            dlookup (removeUsagesOwnedBy st.usages old fp) n2
          else some ((dlookup (removeUsagesOwnedBy st.usages old fp) n2).getD []
            ++ usagesNamed us n2) := by
        intro n2
        exact insertUsages_lookup us _ n2
      by_cases hf : f = fp
      · subst hf
        have h2 : dlookup (dinsert st.usages_by_file f us) f = some us :=
          dlookup_dinsert_self _ f us
        have hl : l = us := by
          have := h
          rw [show (_update_template_file st f us).usages_by_file =
            dinsert st.usages_by_file f us from rfl] at this
          rw [h2] at this
          exact (Option.some_inj.mp this).symm
        have hu2 : u ∈ us := hl ▸ hu
        have hufil : u ∈ usagesNamed us u.name := by
          apply List.mem_filter_of_mem hu2
          simp
        have hne : usagesNamed us u.name ≠ [] := by
          intro hbad
          rw [hbad] at hufil
          cases hufil
        rw [hlook2 u.name, if_neg hne]
        exact ⟨_, rfl, List.mem_append.mpr (Or.inr hufil)⟩
      · have h2 : dlookup st.usages_by_file f = some l := by
          have := h
          rw [show (_update_template_file st fp us).usages_by_file =
            dinsert st.usages_by_file fp us from rfl] at this
          rwa [dlookup_dinsert_ne _ fp f us (fun he => hf he.symm)] at this
        have hufp : u.file_path = f := hInv.tmplStamp f l h2 u hu
        obtain ⟨gl, hgl, hugl⟩ := hInv.tmplComplete f l h2 u hu
        -- the original binding survives the removal layer, filtered or not
        have hrem : ∃ gl2, dlookup (removeUsagesOwnedBy st.usages old fp) u.name
            = some gl2 ∧ u ∈ gl2 := by
          rw [removeUsagesOwnedBy_lookup]
          by_cases hex : ∃ ou ∈ old, ou.name = u.name
          · rw [if_pos hex, hgl]
            have humem : u ∈ gl.filter (fun v => v.file_path ≠ fp) := by
              apply List.mem_filter_of_mem hugl
              simp [hufp, hf]
            have hne2 : gl.filter (fun v => v.file_path ≠ fp) ≠ [] := by
              intro hbad
              rw [hbad] at humem
              cases humem
            show ∃ gl2,
              (if gl.filter (fun v => v.file_path ≠ fp) = [] then none
               else some (gl.filter (fun v => v.file_path ≠ fp))) = some gl2 ∧ u ∈ gl2
            rw [if_neg hne2]
            exact ⟨_, rfl, humem⟩
          · rw [if_neg hex]
            exact ⟨gl, hgl, hugl⟩
        obtain ⟨gl2, hgl2, hugl2⟩ := hrem
        rw [hlook2 u.name]
        by_cases hnew : usagesNamed us u.name = []
        · rw [if_pos hnew]
          exact ⟨gl2, hgl2, hugl2⟩
        · rw [if_neg hnew]
          refine ⟨_, rfl, List.mem_append.mpr (Or.inl ?_)⟩
          rw [hgl2]
          exact hugl2
  case sync =>
      intro f
      by_cases hf : f = fp
      · subst hf
        constructor
        · intro _
          show (dlookup (dinsert st.usages_by_file f us) f).isSome = true
          rw [dlookup_dinsert_self]
          rfl
        · intro _
          show f ∈ sinsert st.indexed_template_files f
          rw [mem_sinsert_iff]
          exact Or.inl rfl
      · constructor
        · intro hmem
          rcases (mem_sinsert_iff st.indexed_template_files fp f).mp hmem with he | hmem2
          · exact absurd he hf
          · show (dlookup (dinsert st.usages_by_file fp us) f).isSome = true
            rw [dlookup_dinsert_ne _ fp f us (fun he => hf he.symm)]
            exact (hInv.tmplSync f).mp hmem2
        · intro hsome
          have hsome2 : (dlookup st.usages_by_file f).isSome = true := by
            have := hsome
            rw [show (_update_template_file st fp us).usages_by_file =
              dinsert st.usages_by_file fp us from rfl] at this
            rwa [dlookup_dinsert_ne _ fp f us (fun he => hf he.symm)] at this
          show f ∈ sinsert st.indexed_template_files fp
          rw [mem_sinsert_iff]
          exact Or.inr ((hInv.tmplSync f).mpr hsome2)

theorem mem_sdiscard_iff (s : List String) (x y : String) :
    y ∈ sdiscard s x ↔ y ∈ s ∧ y ≠ x := by
  simp [sdiscard]

theorem dlookup_derase_some {α : Type} {m : List (String × α)} {k f : String} {v : α}
    (h : dlookup (derase m k) f = some v) : f ≠ k ∧ dlookup m f = some v := by
  by_cases hf : f = k
  · subst hf
    rw [dlookup_derase_self] at h
    exact Option.noConfusion h
  · rw [dlookup_derase_ne m k f (fun he => hf he.symm)] at h
    exact ⟨hf, h⟩

theorem inv_remove_python_half (st : IndexState) (fp : String) (hInv : Inv st) :
    Inv (remove_file_python_half st fp) := by
  unfold remove_file_python_half
  by_cases h1 : fp ∈ st.indexed_python_files
  · rw [if_pos h1]
    set old := (dlookup st.definitions_by_file fp).getD [] with hold
    refine ⟨?_, ?_, ?_, hInv.usagesNonempty, hInv.usageKeyName, hInv.usageOwned,
      hInv.tmplStamp, hInv.tmplComplete, hInv.tmplSync⟩
    · exact nodup_keys_removeDefs fp old _ hInv.defKeysNodup
    · intro n d h
      rw [removeDefsOwnedBy_lookup] at h
      cases hm : dlookup st.definitions n with
      | none => exact absurd (id h) (by rw [hm]; exact fun hx => Option.noConfusion hx)
      | some d2 =>
          rw [hm] at h
          have h2 : (if (∃ od ∈ old, od.name = n) ∧ d2.file_path = fp then none
              else some d2) = some d := h
          by_cases hcond : (∃ od ∈ old, od.name = n) ∧ d2.file_path = fp
          · rw [if_pos hcond] at h2; exact Option.noConfusion h2
          · rw [if_neg hcond] at h2
            cases h2
            exact hInv.defKeyName n d hm
    · intro n d h
      rw [removeDefsOwnedBy_lookup] at h
      cases hm : dlookup st.definitions n with
      | none => exact absurd (id h) (by rw [hm]; exact fun hx => Option.noConfusion hx)
      | some d2 =>
          rw [hm] at h
          have h2 : (if (∃ od ∈ old, od.name = n) ∧ d2.file_path = fp then none
              else some d2) = some d := h
          by_cases hcond : (∃ od ∈ old, od.name = n) ∧ d2.file_path = fp
          · rw [if_pos hcond] at h2; exact Option.noConfusion h2
          · rw [if_neg hcond] at h2
            cases h2
            obtain ⟨l, hl, hdl⟩ := hInv.defOwned n d hm
            have hfp : d.file_path ≠ fp := by
              intro hfpe
              apply hcond
              refine ⟨⟨d, ?_, hInv.defKeyName n d hm⟩, hfpe⟩
              have : old = l := by
                rw [hold, ← hfpe, hl]
                rfl
              rw [this]
              exact hdl
            refine ⟨l, ?_, hdl⟩
            show dlookup (derase st.definitions_by_file fp) d.file_path = some l
            rw [dlookup_derase_ne _ fp d.file_path (fun he => hfp he.symm)]
            exact hl
  · rw [if_neg h1]
    exact hInv

theorem inv_remove_template_half (st : IndexState) (fp : String) (hInv : Inv st) :
    Inv (remove_file_template_half st fp) := by
  unfold remove_file_template_half
  by_cases h1 : fp ∈ st.indexed_template_files
  · rw [if_pos h1]
    set old := (dlookup st.usages_by_file fp).getD [] with hold
    -- decomposition of the removed usages map
    have hsrc : ∀ n L, dlookup (removeUsagesOwnedBy st.usages old fp) n = some L →
        L ≠ [] ∧ ∃ l, dlookup st.usages n = some l ∧
          ((L = l.filter (fun v => v.file_path ≠ fp) ∧ ∃ ou ∈ old, ou.name = n) ∨
            (L = l ∧ ¬ ∃ ou ∈ old, ou.name = n)) := by
      intro n L h
      rw [removeUsagesOwnedBy_lookup] at h
      by_cases hex : ∃ ou ∈ old, ou.name = n
      · rw [if_pos hex] at h
        cases hm : dlookup st.usages n with
        | none => exact absurd (id h) (by rw [hm]; exact fun hx => Option.noConfusion hx)
        | some l =>
            rw [hm] at h
            have h2 : (if l.filter (fun v => v.file_path ≠ fp) = [] then none
                else some (l.filter (fun v => v.file_path ≠ fp))) = some L := h
            by_cases hl : l.filter (fun v => v.file_path ≠ fp) = []
            · rw [if_pos hl] at h2; exact Option.noConfusion h2
            · rw [if_neg hl] at h2
              cases h2
              exact ⟨hl, l, rfl, Or.inl ⟨rfl, hex⟩⟩
      · rw [if_neg hex] at h
        exact ⟨hInv.usagesNonempty n L h, L, h, Or.inr ⟨rfl, hex⟩⟩
    refine ⟨hInv.defKeysNodup, hInv.defKeyName, ?_, ?_, ?_, ?_, ?_, ?_, ?_⟩
    · intro n d h
      exact hInv.defOwned n d h
    · intro n l h
      exact (hsrc n l h).1
    · intro n L h u hu
      obtain ⟨_, l, hm, hcase⟩ := hsrc n L h
      rcases hcase with ⟨hLeq, _⟩ | ⟨hLeq, _⟩
      · rw [hLeq] at hu
        exact hInv.usageKeyName n l hm u (mem_of_mem_filter_list hu)
      · rw [hLeq] at hu
        exact hInv.usageKeyName n l hm u hu
    · intro n L h u hu
      obtain ⟨_, l, hm, hcase⟩ := hsrc n L h
      rcases hcase with ⟨hLeq, _⟩ | ⟨hLeq, hex⟩
      · rw [hLeq] at hu
        have hufp : u.file_path ≠ fp := by
          have hdec := List.of_mem_filter hu
          simpa using hdec
        obtain ⟨l2, hl2, hul2⟩ := hInv.usageOwned n l hm u (mem_of_mem_filter_list hu)
        refine ⟨l2, ?_, hul2⟩
        show dlookup (derase st.usages_by_file fp) u.file_path = some l2
        rw [dlookup_derase_ne _ fp u.file_path (fun he => hufp he.symm)]
        exact hl2
      · rw [hLeq] at hu
        obtain ⟨l2, hl2, hul2⟩ := hInv.usageOwned n l hm u hu
        have hufp : u.file_path ≠ fp := by
          intro he
          apply hex
          refine ⟨u, ?_, hInv.usageKeyName n l hm u hu⟩
          have : old = l2 := by
            rw [hold, ← he, hl2]
            rfl
          rw [this]
          exact hul2
        refine ⟨l2, ?_, hul2⟩
        show dlookup (derase st.usages_by_file fp) u.file_path = some l2
        rw [dlookup_derase_ne _ fp u.file_path (fun he => hufp he.symm)]
        exact hl2
    · intro f l h u hu
      obtain ⟨hf, h2⟩ := dlookup_derase_some h
      exact hInv.tmplStamp f l h2 u hu
    · intro f l h u hu
      obtain ⟨hf, h2⟩ := dlookup_derase_some h
      have hufp : u.file_path = f := hInv.tmplStamp f l h2 u hu
      obtain ⟨gl, hgl, hugl⟩ := hInv.tmplComplete f l h2 u hu
      rw [removeUsagesOwnedBy_lookup]
      by_cases hex : ∃ ou ∈ old, ou.name = u.name
      · rw [if_pos hex, hgl]
        have humem : u ∈ gl.filter (fun v => v.file_path ≠ fp) := by
          apply List.mem_filter_of_mem hugl
          simp [hufp, hf]
        have hne2 : gl.filter (fun v => v.file_path ≠ fp) ≠ [] := by
          intro hbad
          rw [hbad] at humem
          cases humem
        show ∃ gl2,
          (if gl.filter (fun v => v.file_path ≠ fp) = [] then none
           else some (gl.filter (fun v => v.file_path ≠ fp))) = some gl2 ∧ u ∈ gl2
        rw [if_neg hne2]
        exact ⟨_, rfl, humem⟩
      · rw [if_neg hex]
        exact ⟨gl, hgl, hugl⟩
    · intro f
      by_cases hf : f = fp
      · subst hf
        constructor
        · intro hmem
          have hmem2 : f ∈ sdiscard st.indexed_template_files f := hmem
          rw [mem_sdiscard_iff] at hmem2
          exact absurd rfl hmem2.2
        · intro hsome
          have h3 : (dlookup (derase st.usages_by_file f) f).isSome = true := hsome
          rw [dlookup_derase_self] at h3
          cases h3
      · constructor
        · intro hmem
          have hmem2 : f ∈ sdiscard st.indexed_template_files fp := hmem
          rw [mem_sdiscard_iff] at hmem2
          show (dlookup (derase st.usages_by_file fp) f).isSome = true
          rw [dlookup_derase_ne _ fp f (fun he => hf he.symm)]
          exact (hInv.tmplSync f).mp hmem2.1
        · intro hsome
          have hsome2 : (dlookup st.usages_by_file f).isSome = true := by
            have h3 : (dlookup (derase st.usages_by_file fp) f).isSome = true := hsome
            rwa [dlookup_derase_ne _ fp f (fun he => hf he.symm)] at h3
          show f ∈ sdiscard st.indexed_template_files fp
          rw [mem_sdiscard_iff]
          exact ⟨(hInv.tmplSync f).mpr hsome2, hf⟩
  · rw [if_neg h1]
    exact hInv

theorem inv_remove_file (st : IndexState) (fp : String) (hInv : Inv st) :
    Inv (remove_file st fp) :=
  inv_remove_template_half _ fp (inv_remove_python_half st fp hInv)

theorem parse_file_stamp {file : PyFileRead} {p : String} {r : BaseResolver}
    {d : HxRequestDefinition} (h : d ∈ parse_hx_requests_from_file file p r) :
    d.file_path = p := by
  cases file with
  | parsed m => exact parse_module_stamp h
  | missing => cases h
  | undecodable => cases h
  | unparsable => cases h

theorem parse_source_stamp {pr : Option Module} {p : String} {r : BaseResolver}
    {d : HxRequestDefinition} (h : d ∈ parse_hx_requests_from_source pr p r) :
    d.file_path = p := by
  cases pr with
  | some m => exact parse_module_stamp h
  | none => cases h

theorem parse_template_stamp {content fp : String} {u : HxRequestUsage}
    (h : u ∈ parse_template_for_hx_requests content fp) : u.file_path = fp := by
  obtain ⟨k, l, hk, hu2⟩ := usagesOfLines_mem h
  exact (usagesOfLine_span hu2).2.1

theorem parse_template_file_stamp {file : TemplateFileRead} {p : String}
    {u : HxRequestUsage} (h : u ∈ parse_template_file file p) : u.file_path = p := by
  cases file with
  | decoded content => exact parse_template_stamp h
  | missing => cases h
  | undecodable => cases h

theorem index_python_eq_update (st : IndexState) (fp : String)
    (ds : List HxRequestDefinition) (h : dlookup st.definitions_by_file fp = none) :
    _index_python_file st fp ds = _update_python_file st fp ds := by
  unfold _index_python_file _update_python_file
  rw [h]
  rfl

theorem index_template_eq_update (st : IndexState) (fp : String)
    (us : List HxRequestUsage) (h : dlookup st.usages_by_file fp = none) :
    _index_template_file st fp us = _update_template_file st fp us := by
  unfold _index_template_file _update_template_file
  rw [h]
  rfl

theorem inv_build_python_fold (r : BaseResolver) :
    ∀ (pys : List (String × PyFileRead)) (st : IndexState), Inv st →
      (∀ p ∈ pys, dlookup st.definitions_by_file p.1 = none) →
      (pys.map Prod.fst).Nodup →
      Inv (pys.foldl (fun s q => _index_python_file s q.1
        (parse_hx_requests_from_file q.2 q.1 r)) st) := by
  intro pys
  induction pys with
  | nil => intro st hInv _ _; exact hInv
  | cons q rest ih =>
      intro st hInv hfresh hnd
      simp only [List.foldl_cons]
      have hInv1 : Inv (_index_python_file st q.1 (parse_hx_requests_from_file q.2 q.1 r)) := by
        rw [index_python_eq_update st q.1 _ (hfresh q (List.mem_cons_self _ _))]
        exact inv_update_python st q.1 _ hInv (fun d hd => parse_file_stamp hd)
      apply ih _ hInv1
      · intro p hp
        have hne : p.1 ≠ q.1 := by
          intro he
          simp only [List.map_cons, List.nodup_cons] at hnd
          exact hnd.1 (he ▸ List.mem_map_of_mem Prod.fst hp)
        show dlookup (dinsert st.definitions_by_file q.1 _) p.1 = none
        rw [dlookup_dinsert_ne _ q.1 p.1 _ (fun he => hne he.symm)]
        exact hfresh p (List.mem_cons_of_mem _ hp)
      · simp only [List.map_cons, List.nodup_cons] at hnd
        exact hnd.2

theorem build_python_fold_usages_by_file (r : BaseResolver) :
    ∀ (pys : List (String × PyFileRead)) (st : IndexState),
      (pys.foldl (fun s q => _index_python_file s q.1
        (parse_hx_requests_from_file q.2 q.1 r)) st).usages_by_file =
      st.usages_by_file := by
  intro pys
  induction pys with
  | nil => intro st; rfl
  | cons q rest ih =>
      intro st
      simp only [List.foldl_cons]
      exact ih _

theorem inv_build_template_fold :
    ∀ (tmpls : List (String × TemplateFileRead)) (st : IndexState), Inv st →
      (∀ p ∈ tmpls, dlookup st.usages_by_file p.1 = none) →
      (tmpls.map Prod.fst).Nodup →
      Inv (tmpls.foldl (fun s q => _index_template_file s q.1
        (parse_template_file q.2 q.1)) st) := by
  intro tmpls
  induction tmpls with
  | nil => intro st hInv _ _; exact hInv
  | cons q rest ih =>
      intro st hInv hfresh hnd
      simp only [List.foldl_cons]
      have hInv1 : Inv (_index_template_file st q.1 (parse_template_file q.2 q.1)) := by
        rw [index_template_eq_update st q.1 _ (hfresh q (List.mem_cons_self _ _))]
        exact inv_update_template st q.1 _ hInv (fun u hu => parse_template_file_stamp hu)
      apply ih _ hInv1
      · intro p hp
        have hne : p.1 ≠ q.1 := by
          intro he
          simp only [List.map_cons, List.nodup_cons] at hnd
          exact hnd.1 (he ▸ List.mem_map_of_mem Prod.fst hp)
        show dlookup (dinsert st.usages_by_file q.1 _) p.1 = none
        rw [dlookup_dinsert_ne _ q.1 p.1 _ (fun he => hne he.symm)]
        exact hfresh p (List.mem_cons_of_mem _ hp)
      · simp only [List.map_cons, List.nodup_cons] at hnd
        exact hnd.2

theorem inv_build (pys : List (String × PyFileRead)) (r : BaseResolver)
    (tmpls : List (String × TemplateFileRead))
    (hpy : (pys.map Prod.fst).Nodup) (htm : (tmpls.map Prod.fst).Nodup) :
    Inv (build_full_index pys r tmpls) := by
  unfold build_full_index
  apply inv_build_template_fold tmpls _ _ _ htm
  · exact inv_build_python_fold r pys initialState inv_initial
      (fun p _ => rfl) hpy
  · intro p hp
    rw [build_python_fold_usages_by_file]
    rfl

/-- Every reachable index state satisfies the invariant. -/
theorem reachable_inv : ∀ {st : IndexState}, Reachable st → Inv st := by
  intro st h
  induction h with
  | init => exact inv_initial
  | build pys r tmpls hpy htm => exact inv_build pys r tmpls hpy htm
  | updatePy st fp pr r _ ih =>
      exact inv_update_python st fp _ ih (fun d hd => parse_source_stamp hd)
  | updateTmpl st fp content _ ih =>
      exact inv_update_template st fp _ ih (fun u hu => parse_template_stamp hu)
  | removeF st fp _ ih => exact inv_remove_file st fp ih

/-! ### Claims C1, C2, C10 -/

/-- C2: in every reachable index state at most one Definition is
retained per name (the name map has duplicate-free keys), and inserting
a newly parsed Definition whose name is already bound overwrites the
old binding, regardless of which files the two Definitions came from. -/
theorem claim_C2_latest_wins :
    (∀ st : IndexState, Reachable st → (st.definitions.map Prod.fst).Nodup) ∧
    (∀ (m : List (String × HxRequestDefinition)) (d dOld : HxRequestDefinition),
      dlookup m d.name = some dOld →
      dlookup (insertDefs m [d]) d.name = some d) := by
  constructor
  · intro st h
    exact (reachable_inv h).defKeysNodup
  · intro m d dOld hOld
    show dlookup (dinsert m d.name d) d.name = some d
    exact dlookup_dinsert_self m d.name d

def c2_oldDef : HxRequestDefinition :=
  { name := "foo", class_name := "Old", file_path := "b.py", line_number := 1,
    end_line_number := 1, column := 0, base_classes := [], base_class_info := [],
    docstring := none, get_template := none, post_template := none }

def c2_newDef : HxRequestDefinition :=
  { name := "foo", class_name := "New", file_path := "a.py", line_number := 4,
    end_line_number := 6, column := 0, base_classes := [], base_class_info := [],
    docstring := none, get_template := none, post_template := none }

/-- Witness for C2: the new `a.py` definition overwrites the old
`b.py` one. -/
theorem claim_C2_witness :
    (initialState.definitions.map Prod.fst).Nodup ∧
    dlookup [("foo", c2_oldDef)] c2_newDef.name = some c2_oldDef ∧
    dlookup (insertDefs [("foo", c2_oldDef)] [c2_newDef]) c2_newDef.name
      = some c2_newDef :=
  ⟨claim_C2_latest_wins.1 initialState Reachable.init,
   by decide,
   claim_C2_latest_wins.2 [("foo", c2_oldDef)] c2_newDef c2_oldDef (by decide)⟩

/-- C1: after `update_file` re-parses a Python file whose new content
no longer declares a name previously declared there, the name resolves
to absent when its binding was owned by this file — and then
`find_unused_definitions` never references that name — while a binding
owned by a different file survives untouched; moreover the updated
name map retains no binding its owning file's list does not report. -/
theorem claim_C1_stale_definitions_removed :
    ∀ (st : IndexState) (fp : String) (pr : Option Module) (r : BaseResolver),
      Reachable st →
      ∀ n : String,
      (∃ od ∈ (dlookup st.definitions_by_file fp).getD [], od.name = n) →
      (∀ d ∈ parse_hx_requests_from_source pr fp r, d.name ≠ n) →
      ((∀ d, dlookup st.definitions n = some d → d.file_path = fp) →
        get_definition (update_file_python st fp pr r) n = none ∧
        ∀ d ∈ find_unused_definitions (update_file_python st fp pr r), d.name ≠ n) ∧
      (∀ d, dlookup st.definitions n = some d → d.file_path ≠ fp →
        get_definition (update_file_python st fp pr r) n = some d) ∧
      (∀ n2 d, dlookup (update_file_python st fp pr r).definitions n2 = some d →
        ∃ l, dlookup (update_file_python st fp pr r).definitions_by_file d.file_path
          = some l ∧ d ∈ l) := by
  intro st fp pr r hre n hex hnotnew
  have hre2 : Reachable (update_file_python st fp pr r) :=
    Reachable.updatePy st fp pr r hre
  have hInv2 := reachable_inv hre2
  have hlast : lastNamed (parse_hx_requests_from_source pr fp r) n = none :=
    lastNamed_eq_none hnotnew
  have hlook : ∀ k, dlookup (update_file_python st fp pr r).definitions k =
      match lastNamed (parse_hx_requests_from_source pr fp r) k with
      | some d => some d
      | none =>
          match dlookup st.definitions k with
          | none => none
          | some d =>
              if (∃ od ∈ (dlookup st.definitions_by_file fp).getD [], od.name = k)
                  ∧ d.file_path = fp then none
              else some d := by
    intro k
    show dlookup (insertDefs (removeDefsOwnedBy st.definitions
      ((dlookup st.definitions_by_file fp).getD []) fp)
      (parse_hx_requests_from_source pr fp r)) k = _
    rw [insertDefs_lookup, removeDefsOwnedBy_lookup]
  refine ⟨?_, ?_, ?_⟩
  · intro hall
    have hnone : get_definition (update_file_python st fp pr r) n = none := by
      show dlookup (update_file_python st fp pr r).definitions n = none
      rw [hlook n, hlast]
      cases hm : dlookup st.definitions n with
      | none => rfl
      | some d =>
          have hcond : (∃ od ∈ (dlookup st.definitions_by_file fp).getD [],
              od.name = n) ∧ d.file_path = fp := ⟨hex, hall d hm⟩
          show (if (∃ od ∈ (dlookup st.definitions_by_file fp).getD [],
              od.name = n) ∧ d.file_path = fp then none else some d) = none
          rw [if_pos hcond]
    refine ⟨hnone, ?_⟩
    intro d hd
    obtain ⟨p, hpmem, hfp⟩ := List.mem_filterMap.mp hd
    have hdp : d = p.2 := by
      cases hm : dlookup (update_file_python st fp pr r).usages p.1 with
      | none =>
          rw [hm] at hfp
          exact (Option.some_inj.mp hfp).symm
      | some l =>
          rw [hm] at hfp
          have hfp2 : (if l = [] then some p.2 else none) = some d := hfp
          by_cases hl : l = []
          · rw [if_pos hl] at hfp2
            exact (Option.some_inj.mp hfp2).symm
          · rw [if_neg hl] at hfp2
            exact absurd hfp2 (fun hx => Option.noConfusion hx)
    have hlookp : dlookup (update_file_python st fp pr r).definitions p.1 = some p.2 :=
      dlookup_eq_some_of_mem hInv2.defKeysNodup hpmem
    intro hdn
    have hp1 : p.1 = n := by
      rw [← hInv2.defKeyName p.1 p.2 hlookp, ← hdp, hdn]
    rw [hp1] at hlookp
    rw [show dlookup (update_file_python st fp pr r).definitions n =
      get_definition (update_file_python st fp pr r) n from rfl, hnone] at hlookp
    exact Option.noConfusion hlookp
  · intro d hm hfp
    show dlookup (update_file_python st fp pr r).definitions n = some d
    rw [hlook n, hlast]
    rw [hm]
    show (if (∃ od ∈ (dlookup st.definitions_by_file fp).getD [],
        od.name = n) ∧ d.file_path = fp then none else some d) = some d
    rw [if_neg (fun hc => hfp hc.2)]
  · intro n2 d h
    exact hInv2.defOwned n2 d h

def c1_module : Module := [c6_hxclass "A" "foo"]

def c1_state : IndexState :=
  update_file_python initialState "a.py" (some c1_module) trivialResolver

/-- Witness for C1: `a.py` first declares `foo`; updating it with empty
content removes the binding and `find_unused_definitions` no longer
mentions the name. -/
theorem claim_C1_witness :
    (∃ od ∈ (dlookup c1_state.definitions_by_file "a.py").getD [], od.name = "foo") ∧
    (∀ d ∈ parse_hx_requests_from_source (some ([] : Module)) "a.py" trivialResolver,
      d.name ≠ "foo") ∧
    get_definition
      (update_file_python c1_state "a.py" (some ([] : Module)) trivialResolver)
      "foo" = none ∧
    (∀ d ∈ find_unused_definitions
        (update_file_python c1_state "a.py" (some ([] : Module)) trivialResolver),
      d.name ≠ "foo") := by
  have hre : Reachable c1_state :=
    Reachable.updatePy _ _ _ _ Reachable.init
  have h := claim_C1_stale_definitions_removed c1_state "a.py" (some [])
    trivialResolver hre "foo" (by decide) (by decide)
  have hinner : ∀ d, dlookup c1_state.definitions "foo" = some d →
      d.file_path = "a.py" := by
    intro d hd
    have hd3 : Option.all (fun x => x.file_path == "a.py")
        (dlookup c1_state.definitions "foo") = true := by decide
    rw [hd] at hd3
    simpa using hd3
  exact ⟨by decide, by decide, (h.1 hinner).1, (h.1 hinner).2⟩

/-- C10: in every reachable state each binding of the name-to-usages
map is non-empty; a name is bound exactly when some currently indexed
template file contributes a usage of it; `get_usages` is empty exactly
when the name is unbound; and the empty-list branch of
`find_unused_definitions` is unreachable (the function behaves as the
plain "name unbound" filter). -/
theorem claim_C10_usage_lists_nonempty :
    ∀ st : IndexState, Reachable st →
      (∀ n l, dlookup st.usages n = some l → l ≠ []) ∧
      (∀ n, (dlookup st.usages n).isSome = true ↔
        ∃ f l, f ∈ st.indexed_template_files ∧ dlookup st.usages_by_file f = some l ∧
          ∃ u ∈ l, u.name = n) ∧
      (∀ n, get_usages st n = [] ↔ dlookup st.usages n = none) ∧
      (find_unused_definitions st =
        st.definitions.filterMap fun p =>
          if (dlookup st.usages p.1).isSome then none else some p.2) := by
  intro st hre
  have hInv := reachable_inv hre
  refine ⟨hInv.usagesNonempty, ?_, ?_, ?_⟩
  · intro n
    constructor
    · intro hsome
      rcases Option.isSome_iff_exists.mp hsome with ⟨l, hl⟩
      have hne := hInv.usagesNonempty n l hl
      obtain ⟨u, hu⟩ := List.exists_mem_of_ne_nil l hne
      obtain ⟨l2, hl2, hul2⟩ := hInv.usageOwned n l hl u hu
      refine ⟨u.file_path, l2, ?_, hl2, u, hul2, hInv.usageKeyName n l hl u hu⟩
      exact (hInv.tmplSync u.file_path).mpr (by rw [hl2]; rfl)
    · rintro ⟨f, l, hmem, hl, u, hul, hname⟩
      obtain ⟨gl, hgl, hugl⟩ := hInv.tmplComplete f l hl u hul
      rw [hname] at hgl
      rw [hgl]
      rfl
  · intro n
    unfold get_usages
    cases hm : dlookup st.usages n with
    | none => simp
    | some l =>
        have hne := hInv.usagesNonempty n l hm
        simp [hne]
  · unfold find_unused_definitions
    have hfun : (fun p : String × HxRequestDefinition =>
        match dlookup st.usages p.1 with
        | none => some p.2
        | some l => if l = [] then some p.2 else none) =
        fun p => if (dlookup st.usages p.1).isSome then none else some p.2 := by
      funext p
      cases hm : dlookup st.usages p.1 with
      | none => simp
      | some l =>
          have hne := hInv.usagesNonempty p.1 l hm
          simp [hne]
    rw [hfun]

def c10_state : IndexState := update_file_template initialState "t.html" c8_template

/-- Witness for C10 on a state with one indexed template. -/
theorem claim_C10_witness :
    (∀ l, dlookup c10_state.usages "foo" = some l → l ≠ []) ∧
    ((dlookup c10_state.usages "foo").isSome = true ↔
      ∃ f l, f ∈ c10_state.indexed_template_files ∧
        dlookup c10_state.usages_by_file f = some l ∧ ∃ u ∈ l, u.name = "foo") ∧
    (get_usages c10_state "missing" = [] ↔ dlookup c10_state.usages "missing" = none) ∧
    (find_unused_definitions c10_state =
      c10_state.definitions.filterMap fun p =>
        if (dlookup c10_state.usages p.1).isSome then none else some p.2) :=
  have h := claim_C10_usage_lists_nonempty c10_state
    (Reachable.updateTmpl _ _ _ Reachable.init)
  ⟨h.1 "foo", h.2.1 "foo", h.2.2.1 "missing", h.2.2.2⟩

/-! ### Claim C7 -/

theorem keyLe_total (x y : Nat × String) : keyLe x y ∨ keyLe y x := by
  rcases Nat.lt_trichotomy x.1 y.1 with h | h | h
  · exact Or.inl (Or.inl h)
  · rcases le_total x.2 y.2 with h2 | h2
    · exact Or.inl (Or.inr ⟨h, h2⟩)
    · exact Or.inr (Or.inr ⟨h.symm, h2⟩)
  · exact Or.inr (Or.inl h)

theorem keyLe_trans (x y z : Nat × String) :
    keyLe x y → keyLe y z → keyLe x z := by
  intro h1 h2
  rcases h1 with h1 | ⟨h1a, h1b⟩ <;> rcases h2 with h2 | ⟨h2a, h2b⟩
  · exact Or.inl (lt_trans h1 h2)
  · exact Or.inl (h2a ▸ h1)
  · exact Or.inl (h1a ▸ h2)
  · exact Or.inr ⟨h1a.trans h2a, le_trans h1b h2b⟩

instance (capp : Option String) :
    IsTotal HxRequestDefinition (relevanceRel capp) :=
  ⟨fun a b => keyLe_total (relevanceKey capp a) (relevanceKey capp b)⟩

instance (capp : Option String) :
    IsTrans HxRequestDefinition (relevanceRel capp) :=
  ⟨fun a b c => keyLe_trans (relevanceKey capp a) (relevanceKey capp b)
    (relevanceKey capp c)⟩

theorem appFromParts_eq_none_of_no_reserved :
    ∀ parts : List String,
    (∀ p ∈ parts.drop 1,
      ¬(p = "hx_requests" ∨ p = "templates" ∨ p = "template_partials")) →
    appFromParts parts = none
  | [], _ => rfl
  | [_], _ => rfl
  | a :: b :: rest, h => by
      have hb := h b (List.mem_cons_self _ _)
      show (if b = "hx_requests" ∨ b = "templates" ∨ b = "template_partials"
        then some a else appFromParts (b :: rest)) = none
      rw [if_neg hb]
      exact appFromParts_eq_none_of_no_reserved (b :: rest)
        (fun p hp => h p (List.mem_cons_of_mem b hp))

/-- C7: with a current file, `get_definitions_sorted_by_relevance`
returns a permutation of all stored Definitions that is sorted by the
two-part key (0 when the Definition's inferred app equals the current
file's inferred app, else 1; then name order); the inferred app of a
path is the segment immediately preceding the first reserved directory
name occurring past the leading segment, and is absent when no such
occurrence exists. -/
theorem claim_C7_relevance_ranking :
    (∀ (st : IndexState) (cf : String),
      (get_definitions_sorted_by_relevance st (some cf)).Perm
        (st.definitions.map Prod.snd) ∧
      (get_definitions_sorted_by_relevance st (some cf)).Sorted
        (relevanceRel (_extract_app_name cf))) ∧
    (∀ prev dir rest,
      (dir = "hx_requests" ∨ dir = "templates" ∨ dir = "template_partials") →
      appFromParts (prev :: dir :: rest) = some prev) ∧
    (∀ a b rest,
      ¬(b = "hx_requests" ∨ b = "templates" ∨ b = "template_partials") →
      appFromParts (a :: b :: rest) = appFromParts (b :: rest)) ∧
    (∀ parts : List String,
      (∀ p ∈ parts.drop 1,
        ¬(p = "hx_requests" ∨ p = "templates" ∨ p = "template_partials")) →
      appFromParts parts = none) := by
  refine ⟨?_, ?_, ?_, appFromParts_eq_none_of_no_reserved⟩
  · intro st cf
    constructor
    · show (List.insertionSort (relevanceRel (_extract_app_name cf))
        (st.definitions.map Prod.snd)).Perm (st.definitions.map Prod.snd)
      exact List.perm_insertionSort _ _
    · show (List.insertionSort (relevanceRel (_extract_app_name cf))
        (st.definitions.map Prod.snd)).Sorted (relevanceRel (_extract_app_name cf))
      exact List.sorted_insertionSort _ _
  · intro prev dir rest h
    show (if dir = "hx_requests" ∨ dir = "templates" ∨ dir = "template_partials"
      then some prev else appFromParts (dir :: rest)) = some prev
    rw [if_pos h]
  · intro a b rest h
    show (if b = "hx_requests" ∨ b = "templates" ∨ b = "template_partials"
      then some a else appFromParts (b :: rest)) = appFromParts (b :: rest)
    rw [if_neg h]

/-- Witness for C7 on a one-definition state and a concrete current
file inside the `templates` directory of an app. -/
theorem claim_C7_witness :
    ((get_definitions_sorted_by_relevance c1_state
        (some "/proj/appX/templates/t.html")).Perm
      (c1_state.definitions.map Prod.snd) ∧
     (get_definitions_sorted_by_relevance c1_state
        (some "/proj/appX/templates/t.html")).Sorted
      (relevanceRel (_extract_app_name "/proj/appX/templates/t.html"))) ∧
    appFromParts ["appX", "templates", "t.html"] = some "appX" ∧
    appFromParts ["x", "appX", "templates", "t.html"]
      = appFromParts ["appX", "templates", "t.html"] ∧
    appFromParts ["a", "b", "c"] = none :=
  ⟨claim_C7_relevance_ranking.1 c1_state "/proj/appX/templates/t.html",
   claim_C7_relevance_ranking.2.1 "appX" "templates" ["t.html"]
     (Or.inr (Or.inl rfl)),
   claim_C7_relevance_ranking.2.2.1 "x" "appX" ["templates", "t.html"]
     (by decide),
   claim_C7_relevance_ranking.2.2.2 ["a", "b", "c"] (by decide)⟩

end HxRequestsLsp
